import Mathlib

/-!
Verification of the grove EPUB reader: a shallow embedding of the
pagination controller, the reading-anchor restore guard, the chapter
render-token discipline, the EPUB table-of-contents resolution
pipeline of `src/frontend/src/epub/parseEpub.ts`, and the chapter
content sanitizer of `src/frontend/src/components/ReaderContent.svelte`.

String-valued source operations (`split`, `toLowerCase`, `trim`,
regular-expression tests, and so on) are embedded as character-list
computations so that every definition evaluates inside the kernel.
The file is laid out as definitions first, then the theorems.
-/

/-! ## Pagination controller

The reader imports `createPaginationController` from
`./paginationController`; that module's source file is not part of the
repository snapshot, only its call sites are.  The state machine below is
therefore modelled from the specification (section 4.5).
-/

/-- Modelled from the spec: the mutable state owned by the pagination
controller (`paginationController.ts` is missing from the snapshot).
`pageIndex` is clamped to `[0, pageCount - 1]`, `pageCount ≥ 1`,
`viewportWidth ≥ 0`. -/
structure PaginationState where
  pageIndex : Int
  pageCount : Int
  viewportWidth : Int
deriving Repr, DecidableEq

/-- Modelled from the spec: clamp an absolute page index into
`[0, pageCount - 1]`. -/
def clampPageIndex (i count : Int) : Int :=
  max 0 (min i (count - 1))

/-- Modelled from the spec: `recalcLayout(contentWidth, viewportWidth)`.
If `viewportWidth ≤ 0` the state resets to `{0, 1, 0}`; otherwise
`pageCount = max(1, ceil(max(contentWidth, viewportWidth) / viewportWidth))`
(the ceiling is computed with the usual `(a + b - 1) / b` floor-division
identity) and the page index is re-clamped. -/
def recalcLayout (s : PaginationState) (contentWidth viewportWidth : Int) :
    PaginationState :=
  if viewportWidth ≤ 0 then ⟨0, 1, 0⟩
  else
    let effectiveContent := max contentWidth viewportWidth
    let pageCount := max 1 ((effectiveContent + viewportWidth - 1).fdiv viewportWidth)
    ⟨clampPageIndex s.pageIndex pageCount, pageCount, viewportWidth⟩

/-- Modelled from the spec: `nextPage()` increments the page index, clamped. -/
def nextPage (s : PaginationState) : PaginationState :=
  { s with pageIndex := clampPageIndex (s.pageIndex + 1) s.pageCount }

/-- Modelled from the spec: `prevPage()` decrements the page index, clamped. -/
def prevPage (s : PaginationState) : PaginationState :=
  { s with pageIndex := clampPageIndex (s.pageIndex - 1) s.pageCount }

/-- Modelled from the spec: `setPage(index)` sets the page index, clamped. -/
def setPage (s : PaginationState) (i : Int) : PaginationState :=
  { s with pageIndex := clampPageIndex i s.pageCount }

/-- Modelled from the spec: `setPageByOffset(pixelOffset)` sets
`pageIndex = floor(pixelOffset / viewportWidth)`, clamped.  `Int.fdiv` is
floor division; the `viewportWidth = 0` case (division by zero in the
source language) is mapped to `fdiv`'s value `0`, which the claims below
never rely on. -/
def setPageByOffset (s : PaginationState) (pixelOffset : Int) : PaginationState :=
  { s with pageIndex := clampPageIndex (pixelOffset.fdiv s.viewportWidth) s.pageCount }

/-- A navigation event sent to the pagination controller:
`nextPage`, `prevPage` or `setPage(i)`. -/
inductive NavOp where
  | next : NavOp
  | prev : NavOp
  | set (i : Int) : NavOp
deriving Repr, DecidableEq

/-- Dispatch one navigation event. -/
def applyNavOp (s : PaginationState) : NavOp → PaginationState
  | .next => nextPage s
  | .prev => prevPage s
  | .set i => setPage s i

/-- Run a sequence of navigation events. -/
def applyNavOps (s : PaginationState) (ops : List NavOp) : PaginationState :=
  ops.foldl applyNavOp s

/-- The clamp invariant: at least one page, and the index strictly inside. -/
def PaginationInv (s : PaginationState) : Prop :=
  1 ≤ s.pageCount ∧ 0 ≤ s.pageIndex ∧ s.pageIndex < s.pageCount

/-! ## Reading anchor restore (`restoreReadingAnchor` in
`src/frontend/src/components/ReaderContent.svelte`)

The DOM is embedded as a tree of element and text nodes; geometry
(`getBoundingClientRect`) is a black-box oracle passed in as a function,
exactly like the layout collaborator of the spec. -/

/-- A DOM node as seen by the anchor tracker: a text node or an element
with an ordered `childNodes` list. -/
inductive DomNode where
  | text (content : String)
  | elem (children : List DomNode)

/-- The `childNodes[index]` access used by `resolveNodePath`. -/
def domChildAt : DomNode → Nat → Option DomNode
  | .text _, _ => none
  | .elem cs, i => cs[i]?

/-- Iterative descent of `resolveNodePath` before the final `Text` check. -/
def resolveNodePathAux : Option DomNode → List Nat → Option DomNode
  | none, _ => none
  | some n, [] => some n
  | some n, i :: rest => resolveNodePathAux (domChildAt n i) rest

/-- `resolveNodePath(root, path)`: walk child indices from the root and
return the final node only when it is a text node. -/
def resolveNodePath (root : DomNode) (path : List Nat) : Option DomNode :=
  match resolveNodePathAux (some root) path with
  | some (DomNode.text s) => some (DomNode.text s)
  | _ => none

/-- `textContent.length ?? 0` of a resolved node. -/
def textContentLength : DomNode → Int
  | .text s => s.length
  | .elem _ => 0

/-- The `ReadingAnchor` record: chapter spine index, child-index path from
the article root to a text node, character offset. -/
structure ReadingAnchor where
  spineIndex : Int
  nodePath : List Nat
  charOffset : Int
deriving Repr, DecidableEq

/-- `restoreReadingAnchor()`.  Inputs are the component state it reads
(`isVertical`, `articleEl`, `readingAnchor`, `currentSpineIndex`), the
geometry oracle (`measureLeft` stands for the marker range's
`getBoundingClientRect().left`, `articleLeft` for the article's), and the
pagination state; the result is the pagination state after the call. -/
def restoreReadingAnchor (isVertical : Bool) (articleEl : Option DomNode)
    (readingAnchor : Option ReadingAnchor) (currentSpineIndex : Int)
    (measureLeft : DomNode → Int → Int) (articleLeft : Int)
    (pagination : PaginationState) : PaginationState :=
  match articleEl, readingAnchor with
  | some article, some anchor =>
    if ¬ isVertical then pagination
    else if anchor.spineIndex ≠ currentSpineIndex then pagination
    else
      match resolveNodePath article anchor.nodePath with
      | none => pagination
      | some textNode =>
        let length := textContentLength textNode
        if length = 0 then pagination
        else
          let safeOffset := max 0 (min anchor.charOffset (length - 1))
          let markerLeft := measureLeft textNode safeOffset
          let currentOffset := pagination.pageIndex * pagination.viewportWidth
          let absoluteOffset := markerLeft - articleLeft + currentOffset
          setPageByOffset pagination absoluteOffset
  | _, _ => pagination

/-! ## Chapter render token (`preprocessChapterHtml` in
`src/frontend/src/components/ReaderContent.svelte`)

`preprocessChapterHtml` runs on a single-threaded cooperative event loop.
Each run executes `const token = ++processingToken` atomically when it
starts, performs its asynchronous asset-resolution work (which touches no
shared render state), and finally — still atomically — performs
`if (token !== processingToken) return; renderedHtml = ...`.  A run is
therefore modelled by two atomic events, `start` and `finish`; an
interleaving of two runs is a list of such events. -/

/-- Atomic events of two concurrent `preprocessChapterHtml` runs:
`s1`/`f1` are run 1's token acquisition and final guarded write, `s2`/`f2`
run 2's. -/
inductive RenderEv where
  | s1 : RenderEv
  | s2 : RenderEv
  | f1 : RenderEv
  | f2 : RenderEv
deriving Repr, DecidableEq

/-- Shared and run-local state: the module-level `processingToken` counter,
the `renderedHtml` display state (recorded as which run's output it holds),
and each run's captured local `token`. -/
structure RenderState where
  processingToken : Nat
  renderedHtml : Option Nat
  token1 : Option Nat
  token2 : Option Nat
deriving Repr, DecidableEq

/-- Initial state: no run started, nothing rendered. -/
def renderInit : RenderState := ⟨0, none, none, none⟩

/-- Execute one atomic event.  `start` is `const token = ++processingToken`;
`finish` is `if (token !== processingToken) return; renderedHtml = out`. -/
def renderStep (st : RenderState) : RenderEv → RenderState
  | .s1 => { st with processingToken := st.processingToken + 1,
                     token1 := some (st.processingToken + 1) }
  | .s2 => { st with processingToken := st.processingToken + 1,
                     token2 := some (st.processingToken + 1) }
  | .f1 =>
    match st.token1 with
    | some t => if t = st.processingToken then { st with renderedHtml := some 1 } else st
    | none => st
  | .f2 =>
    match st.token2 with
    | some t => if t = st.processingToken then { st with renderedHtml := some 2 } else st
    | none => st

/-- Execute a whole interleaving. -/
def renderExec (st : RenderState) (trace : List RenderEv) : RenderState :=
  trace.foldl renderStep st

/-- The interleavings of the race in question: each run starts once and
finishes once, run 1 started first, each run's start precedes its finish,
and run 2 starts before run 1 finishes. -/
def ValidRace (t : List RenderEv) : Prop :=
  t.Perm [RenderEv.s1, RenderEv.s2, RenderEv.f1, RenderEv.f2]
    ∧ t.indexOf RenderEv.s1 < t.indexOf RenderEv.s2
    ∧ t.indexOf RenderEv.s2 < t.indexOf RenderEv.f1
    ∧ t.indexOf RenderEv.s2 < t.indexOf RenderEv.f2

/-! ## Character-level string operations

These mirror the JavaScript string primitives used by `parseEpub.ts` and
`ReaderContent.svelte`: `split`, `join`, `toLowerCase`, `trim`,
`startsWith`, `endsWith`, `includes`, and the two regular expressions
`/\.x?html?(#|$)/i` and `/^(data:|blob:|https?:|\/)/i`. -/

/-- `s.split(sep)` for a single-character separator, on character lists
(`acc` carries the current field, reversed). -/
def splitCharsOn (sep : Char) : List Char → List Char → List String
  | [], acc => [String.mk acc.reverse]
  | c :: rest, acc =>
    if c = sep then String.mk acc.reverse :: splitCharsOn sep rest []
    else splitCharsOn sep rest (c :: acc)

/-- `s.split(sep)` for a single-character separator. -/
def splitOnChar (s : String) (sep : Char) : List String :=
  splitCharsOn sep s.data []

/-- `parts.join('/')`, as a character list. -/
def joinWithSlash : List String → List Char
  | [] => []
  | [s] => s.data
  | s :: rest => s.data ++ '/' :: joinWithSlash rest

/-- `s.toLowerCase()` (ASCII letters; other characters unchanged). -/
def toLowerStr (s : String) : String := ⟨s.data.map Char.toLower⟩

/-- `p.isPrefixOf s` lifted to strings: `s.startsWith(p)`. -/
def startsWithStr (s p : String) : Bool := p.data.isPrefixOf s.data

/-- `s.endsWith(p)`. -/
def endsWithStr (s p : String) : Bool := p.data.isSuffixOf s.data

/-- `s.includes(pat)`, substring search. -/
def containsSubAux (pat : List Char) : List Char → Bool
  | [] => pat.isEmpty
  | c :: rest => pat.isPrefixOf (c :: rest) || containsSubAux pat rest

/-- `s.includes(pat)`. -/
def containsSub (s pat : String) : Bool := containsSubAux pat.data s.data

/-- Whitespace characters stripped by `String.prototype.trim` that can
occur in this pipeline. -/
def isJsSpace (c : Char) : Bool := c = ' ' || c = '\t' || c = '\n' || c = '\r'

/-- `s.trim()`. -/
def trimStr (s : String) : String :=
  ⟨((s.data.dropWhile isJsSpace).reverse.dropWhile isJsSpace).reverse⟩

/-- JavaScript `a || dflt` for strings: the empty string is falsy. -/
def jsOrDefault (s dflt : String) : String := if s = "" then dflt else s

/-- `href.split('#')[0].split('?')[0]`: everything before the first `#`,
then before the first `?`. -/
def stripFragmentAndQuery (s : String) : String :=
  ⟨(s.data.takeWhile (· ≠ '#')).takeWhile (· ≠ '?')⟩

/-- `href.includes('#') ? '#' + href.split('#').slice(1).join('#') : ''`:
the suffix of the string starting at the first `#`, or empty. -/
def hashSuffix (s : String) : String := ⟨s.data.dropWhile (· ≠ '#')⟩

/-- The extensions accepted by the `/\.x?html?(#|$)/i` anchor filter. -/
def htmlExts : List (List Char) :=
  [".xhtml".data, ".xhtm".data, ".html".data, ".htm".data]

/-- Does one of the accepted extensions occur at the head of `cs`,
followed by `#` or the end of the string? -/
def htmlExtAt (cs : List Char) : Bool :=
  htmlExts.any fun ext =>
    ext.isPrefixOf cs &&
      ((cs.drop ext.length).isEmpty || (cs.drop ext.length).head? = some '#')

/-- Search loop of the `/\.x?html?(#|$)/i` test. -/
def htmlHrefTestAux : List Char → Bool
  | [] => false
  | c :: rest => htmlExtAt (c :: rest) || htmlHrefTestAux rest

/-- `/\.x?html?(#|$)/i.test(href)`. -/
def htmlHrefTest (href : String) : Bool :=
  htmlHrefTestAux (toLowerStr href).data

/-- `/^(data:|blob:|https?:|\/)/i.test(url)` — `isAbsoluteUrl` in
`ReaderContent.svelte`. -/
def isAbsoluteUrl (url : String) : Bool :=
  let l := toLowerStr url
  startsWithStr l "data:" || startsWithStr l "blob:" || startsWithStr l "http:"
    || startsWithStr l "https:" || startsWithStr l "/"

/-! ## Path resolution (`resolvePath` and `dirname` in `parseEpub.ts`) -/

/-- `resolvePath(basePath, href)`: split the concatenation on `/`, drop
empty and `.` segments, pop the stack on `..` (a no-op on an empty stack —
the function never throws), and re-join with `/`. -/
def resolvePath (basePath href : String) : String :=
  let combined := basePath ++ href
  let rawParts := splitOnChar combined '/'
  let normalized := rawParts.foldl
    (fun acc part =>
      if part = "" ∨ part = "." then acc
      else if part = ".." then acc.dropLast
      else acc ++ [part]) []
  ⟨joinWithSlash normalized⟩

/-- `dirname(path)`: everything up to and including the last `/`, or the
empty string when there is no `/`. -/
def lastSlashPos (cs : List Char) : Option Nat :=
  (cs.reverse.findIdx? (· = '/')).map (fun r => cs.length - 1 - r)

/-- `dirname(path)` of `parseEpub.ts`. -/
def dirname (path : String) : String :=
  match lastSlashPos path.data with
  | none => ""
  | some i => ⟨path.data.take (i + 1)⟩

/-! ## EPUB structure model (`parseEpub.ts`)

The archive and markup-parsing collaborators are black boxes: the zip is a
finite map from exact normalized paths to already-parsed file data, and a
parsed file exposes exactly the tree queries `extractToc` performs on it
(`nav a[href]` anchors, the NCX `navMap`/`navPoint` tree, `title` + body
text, and `a[href]` anchors). -/

/-- A manifest `<item>`: id, href, media type, optional properties. -/
structure ManifestItem where
  id : String
  href : String
  mediaType : String
  properties : Option String
deriving Repr, DecidableEq

/-- A spine `<itemref>`. -/
structure SpineItem where
  idref : String
  linear : Option String
deriving Repr, DecidableEq

/-- A stored TOC entry; `children = []` plays the role of an absent
`children` field. -/
inductive TocItem where
  | mk (id : String) (label : String) (href : String) (children : List TocItem)
deriving Repr

/-- The `id` field of a `TocItem`. -/
def TocItem.id : TocItem → String
  | .mk i _ _ _ => i

/-- The `label` field of a `TocItem`. -/
def TocItem.label : TocItem → String
  | .mk _ l _ _ => l

/-- The `href` field of a `TocItem`. -/
def TocItem.href : TocItem → String
  | .mk _ _ h _ => h

/-- The `children` field of a `TocItem`. -/
def TocItem.children : TocItem → List TocItem
  | .mk _ _ _ cs => cs

/-- An intermediate normalized TOC row (`NormalizedTocItem` in the
source). -/
structure NormalizedTocItem where
  title : String
  href : String
  spineIndex : Nat
deriving Repr, DecidableEq

/-- An anchor element as returned by `querySelectorAll('a[href]')` /
`querySelectorAll('nav a[href]')`: its `href` attribute and its
`textContent`. -/
structure NavLink where
  href : String
  text : String
deriving Repr, DecidableEq

/-- A `navPoint` element of an NCX document.  `label` and `src` are the
results of the namespace-tolerant queries
`getElementsByTagNameNS('*', 'text')[0]?.textContent` and
`getElementsByTagNameNS('*', 'content')[0]?.getAttribute('src')` (the
queries search all descendants in document order, so on a well-formed
navPoint they hit the node's own navLabel / content elements first). -/
inductive NavPoint where
  | mk (label : Option String) (src : Option String) (children : List NavPoint)

/-- The parsed views of one archive entry used by the TOC pipeline. -/
structure FileData where
  navLinks : List NavLink
  ncxNavMap : Option (List NavPoint)
  titleBody : String
  anchors : List NavLink

/-- An archive handle: exact-path lookup of parsed entries. -/
abbrev ZipArchive := List (String × FileData)

/-- `zip.file(path)` (exact normalized path lookup). -/
def zipFile (zip : ZipArchive) (path : String) : Option FileData :=
  (zip.find? (fun e => e.1 = path)).map (·.2)

/-- JavaScript `Map.prototype.get`. -/
def mapGet [DecidableEq α] (m : List (α × β)) (k : α) : Option β :=
  (m.find? (fun e => e.1 = k)).map (·.2)

/-- JavaScript `Map.prototype.set`: overwrite in place, else append. -/
def mapSet [DecidableEq α] (m : List (α × β)) (k : α) (v : β) : List (α × β) :=
  if m.any (fun e => e.1 = k) then m.map (fun e => if e.1 = k then (k, v) else e)
  else m ++ [(k, v)]

/-- The `SpineLookup` record of `parseEpub.ts`. -/
structure SpineLookup where
  pathToSpineIndex : List (String × Nat)
  spineIndexToManifestHref : List (Nat × String)

/-- `new Map(manifest.map(item => [item.id, item]))`. -/
def manifestIdMap (manifest : List ManifestItem) : List (String × ManifestItem) :=
  manifest.foldl (fun m it => mapSet m it.id it) []

/-- One `spine.forEach` step of `buildSpineLookup`: for a spine entry at
index `p.1` whose idref resolves to a manifest item, record
`resolvePath(basePath, item.href) → index` and `index → item.href`. -/
def spineLookupStep (basePath : String)
    (manifestMap : List (String × ManifestItem)) (lk : SpineLookup)
    (p : Nat × SpineItem) : SpineLookup :=
  match mapGet manifestMap p.2.idref with
  | none => lk
  | some mi =>
    ⟨mapSet lk.pathToSpineIndex (resolvePath basePath mi.href) p.1,
     mapSet lk.spineIndexToManifestHref p.1 mi.href⟩

/-- `buildSpineLookup(basePath, manifest, spine)`. -/
def buildSpineLookup (basePath : String) (manifest : List ManifestItem)
    (spine : List SpineItem) : SpineLookup :=
  spine.enum.foldl (spineLookupStep basePath (manifestIdMap manifest)) ⟨[], []⟩

/-- The resolved archive path of a spine item: the manifest item its
idref names, resolved against the base path (`none` when the idref is
dangling). -/
def spineItemPath (basePath : String) (mm : List (String × ManifestItem))
    (s : SpineItem) : Option String :=
  (mapGet mm s.idref).map (fun mi => resolvePath basePath mi.href)

/-- Stable insertion used by `sortStable`: the new element goes in front of
the first element it compares `le` to, so earlier input elements stay in
front of later equal ones. -/
def insertLe (le : α → α → Bool) (x : α) : List α → List α
  | [] => [x]
  | y :: ys => if le x y then x :: y :: ys else y :: insertLe le x ys

/-- A stable comparison sort, modelling `Array.prototype.sort` (stable per
the ECMAScript specification). -/
def sortStable (le : α → α → Bool) : List α → List α
  | [] => []
  | x :: xs => insertLe le x (sortStable le xs)

/-- One loop iteration of `normalizeTocLinks`: the accumulator carries the
`dedupe` set and the rows collected so far. -/
def normalizeTocLinkStep (sourcePath : String) (spineLookup : SpineLookup)
    (acc : List String × List NormalizedTocItem) (link : NavLink) :
    List String × List NormalizedTocItem :=
  if link.href = "" then acc
  else if ¬ htmlHrefTest link.href then acc
  else
    let hrefWithoutHash := stripFragmentAndQuery link.href
    let resolvedPath := resolvePath (dirname sourcePath) hrefWithoutHash
    match mapGet spineLookup.pathToSpineIndex resolvedPath with
    | none => acc
    | some spineIndex =>
      match mapGet spineLookup.spineIndexToManifestHref spineIndex with
      | none => acc
      | some manifestHref =>
        let fullHref := manifestHref ++ hashSuffix link.href
        if acc.1.contains fullHref then acc
        else
          (fullHref :: acc.1,
           acc.2 ++ [⟨jsOrDefault (trimStr link.text)
                        ("Chapter " ++ toString (spineIndex + 1)),
                      fullHref, spineIndex⟩])

/-- `normalizeTocLinks(links, sourcePath, spineLookup)`: filter anchors by
the `/\.x?html?(#|$)/i` pattern, resolve the fragment-stripped href against
the source document's directory into a spine index, re-express the href as
manifest href plus original fragment, deduplicate by that full href
(first occurrence wins), and stable-sort ascending by spine index. -/
def normalizeTocLinks (links : List NavLink) (sourcePath : String)
    (spineLookup : SpineLookup) : List NormalizedTocItem :=
  let folded := links.foldl (normalizeTocLinkStep sourcePath spineLookup) ([], [])
  sortStable (fun a b => a.spineIndex ≤ b.spineIndex) folded.2

/-- A normalized TOC row originates from one of the anchors: the anchor
passed the href pattern, its stripped href resolved to the row's spine
index, and the row's href is the manifest href plus the anchor's
fragment. -/
def TocLinkOrigin (links : List NavLink) (sourcePath : String)
    (spineLookup : SpineLookup) (it : NormalizedTocItem) : Prop :=
  ∃ l ∈ links, l.href ≠ "" ∧ htmlHrefTest l.href = true
    ∧ mapGet spineLookup.pathToSpineIndex
        (resolvePath (dirname sourcePath) (stripFragmentAndQuery l.href))
      = some it.spineIndex
    ∧ ∃ mh, mapGet spineLookup.spineIndexToManifestHref it.spineIndex = some mh
        ∧ it.href = mh ++ hashSuffix l.href

/-- `toStoredToc(items)`: strip the spine index and assign sequential ids
`toc-1`, `toc-2`, …. -/
def toStoredToc (items : List NormalizedTocItem) : List TocItem :=
  items.enum.map (fun p => TocItem.mk ("toc-" ++ toString (p.1 + 1)) p.2.title p.2.href [])

/-- `item.properties?.split(' ').includes('nav')`: is this the
nav-flagged manifest item? -/
def hasNavProperty (item : ManifestItem) : Bool :=
  match item.properties with
  | some p => (splitOnChar p ' ').contains "nav"
  | none => false

/-- NCX detection: legacy NCX media type, or an href ending in `.ncx`. -/
def isNcxItem (item : ManifestItem) : Bool :=
  item.mediaType = "application/x-dtbncx+xml"
    || endsWithStr (toLowerStr item.href) ".ncx"

/-- `extractNavToc(zip, basePath, manifest, spineLookup)`: find the
manifest item whose `properties` tokens contain `nav`, read it, and
normalize its `nav a[href]` anchors. -/
def extractNavToc (zip : ZipArchive) (basePath : String)
    (manifest : List ManifestItem) (spineLookup : SpineLookup) :
    List NormalizedTocItem :=
  match manifest.find? hasNavProperty with
  | none => []
  | some navItem =>
    let navFilePath := resolvePath basePath navItem.href
    match zipFile zip navFilePath with
    | none => []
    | some fd => normalizeTocLinks fd.navLinks navFilePath spineLookup

/-- `normalizeNcxHref(src, ncxPath, spineLookup)`: resolve the
fragment-stripped `content src` against the NCX directory to a spine
index, re-express it as the manifest href, and re-attach the original
fragment; the empty string when `src` is empty or does not resolve. -/
def normalizeNcxHref (src : String) (ncxPath : String)
    (spineLookup : SpineLookup) : String :=
  if src = "" then ""
  else
    let srcPath := stripFragmentAndQuery src
    let resolvedPath := resolvePath (dirname ncxPath) srcPath
    let manifestHref :=
      match mapGet spineLookup.pathToSpineIndex resolvedPath with
      | some spineIndex => mapGet spineLookup.spineIndexToManifestHref spineIndex
      | none => none
    manifestHref.getD "" ++ hashSuffix src

mutual

/-- `parseNavPointElement(el, parentId)` of `extractNcxToc`, with the
shared `dedupe` set threaded explicitly (the source closes over a mutable
`Set`; children are parsed, and update the set, before the node's own
dedupe check). -/
def parseNavPointElement (ncxPath : String) (spineLookup : SpineLookup)
    (np : NavPoint) (parentId : String) (seen : List String) :
    Option TocItem × List String :=
  match np with
  | .mk labelOpt srcOpt childPoints =>
    let label := jsOrDefault (trimStr (labelOpt.getD "")) "Untitled"
    let src := srcOpt.getD ""
    let href := normalizeNcxHref src ncxPath spineLookup
    let parsed := parseNavPointChildren ncxPath spineLookup childPoints parentId 1 seen
    let children := parsed.1
    let seen1 := parsed.2
    if href = "" ∧ children.isEmpty then (none, seen1)
    else if href ≠ "" ∧ seen1.contains href ∧ children.isEmpty then (none, seen1)
    else
      let seen2 := if href ≠ "" ∧ ¬ seen1.contains href then href :: seen1 else seen1
      (some (TocItem.mk parentId label href children), seen2)

/-- The `childNodes.map((child, index) => parse(child, parentId-(index+1)))
 .filter(≠ null)` loop of `parseNavPointElement`, threading the dedupe
set left to right. -/
def parseNavPointChildren (ncxPath : String) (spineLookup : SpineLookup)
    (nps : List NavPoint) (parentId : String) (k : Nat) (seen : List String) :
    List TocItem × List String :=
  match nps with
  | [] => ([], seen)
  | np :: rest =>
    let parsedHead := parseNavPointElement ncxPath spineLookup np
      (parentId ++ "-" ++ toString k) seen
    let parsedRest := parseNavPointChildren ncxPath spineLookup rest parentId
      (k + 1) parsedHead.2
    (match parsedHead.1 with
     | some it => it :: parsedRest.1
     | none => parsedRest.1,
     parsedRest.2)

end

/-- `extractNcxToc(zip, basePath, manifest, spineLookup)`: find the NCX
manifest item (by media type or `.ncx` extension), read its `navMap`, and
recursively parse the root navPoints with ids `toc-1`, `toc-2`, …. -/
def extractNcxToc (zip : ZipArchive) (basePath : String)
    (manifest : List ManifestItem) (spineLookup : SpineLookup) : List TocItem :=
  match manifest.find? isNcxItem with
  | none => []
  | some ncxItem =>
    let ncxPath := resolvePath basePath ncxItem.href
    match zipFile zip ncxPath with
    | none => []
    | some fd =>
      match fd.ncxNavMap with
      | none => []
      | some rootNavPoints =>
        (parseNavPointChildren ncxPath spineLookup rootNavPoints "toc" 1 []).1

/-- A fallback-scan candidate: the document path, its score, and its
qualifying anchors. -/
structure TocCandidate where
  path : String
  score : Nat
  anchors : List NavLink

/-- `extractFallbackHtmlToc(zip, basePath, manifest, spineLookup)`: score
every HTML-family manifest item (contents-marker token in title/body,
anchors resolving to spine documents, link density), pick the highest
scorer (stable sort keeps encounter order on ties), and normalize its
anchors. -/
def extractFallbackHtmlToc (zip : ZipArchive) (basePath : String)
    (manifest : List ManifestItem) (spineLookup : SpineLookup) :
    List NormalizedTocItem :=
  let htmlItems := manifest.filter (fun item =>
    containsSub (toLowerStr item.mediaType) "html"
      || containsSub (toLowerStr item.mediaType) "xhtml"
      || endsWithStr (toLowerStr item.href) ".xhtml"
      || endsWithStr (toLowerStr item.href) ".html")
  let candidates := htmlItems.foldl
    (fun (cands : List TocCandidate) item =>
      let itemPath := resolvePath basePath item.href
      match zipFile zip itemPath with
      | none => cands
      | some fd =>
        let title := toLowerStr fd.titleBody
        let htmlAnchors := fd.anchors.filter (fun a => htmlHrefTest a.href)
        let linksToSpine := (htmlAnchors.filter (fun a =>
          (mapGet spineLookup.pathToSpineIndex
            (resolvePath (dirname itemPath) (stripFragmentAndQuery a.href))).isSome)).length
        let hasTocTitle := containsSub title "目次" || containsSub title "contents"
        let hasManyLinks := htmlAnchors.length ≥ 5
        let pointsToSpine := linksToSpine ≥ 3
        if ¬ (hasTocTitle || hasManyLinks || pointsToSpine) then cands
        else
          let score := (if hasTocTitle then 3 else 0)
            + (if pointsToSpine then 2 else 0)
            + min (htmlAnchors.length / 5) 3
          cands ++ [⟨itemPath, score, htmlAnchors⟩])
    []
  let sorted := sortStable (fun a b => b.score ≤ a.score) candidates
  match sorted.head? with
  | none => []
  | some best => normalizeTocLinks best.anchors best.path spineLookup

/-- `generateSpineToc(spine, spineLookup)`: one `Chapter N` entry per spine
position whose manifest href is known. -/
def generateSpineToc (spine : List SpineItem) (spineLookup : SpineLookup) :
    List TocItem :=
  spine.enum.filterMap (fun p =>
    (mapGet spineLookup.spineIndexToManifestHref p.1).map (fun manifestHref =>
      TocItem.mk ("chapter-" ++ toString (p.1 + 1))
        ("Chapter " ++ toString (p.1 + 1)) manifestHref []))

/-- `extractToc(zip, basePath, manifest, spine)`: the priority chain — nav
document, then NCX, then the heuristic HTML scan, then the spine-derived
fallback; the first non-empty result wins. -/
def extractToc (zip : ZipArchive) (basePath : String)
    (manifest : List ManifestItem) (spine : List SpineItem) : List TocItem :=
  let spineLookup := buildSpineLookup basePath manifest spine
  let navToc := extractNavToc zip basePath manifest spineLookup
  if navToc.length > 0 then toStoredToc navToc
  else
    let ncxToc := extractNcxToc zip basePath manifest spineLookup
    if ncxToc.length > 0 then ncxToc
    else
      let fallbackToc := extractFallbackHtmlToc zip basePath manifest spineLookup
      if fallbackToc.length > 0 then toStoredToc fallbackToc
      else generateSpineToc spine spineLookup

mutual

/-- All TOC entries of a forest, including nested children. -/
def flattenToc : List TocItem → List TocItem
  | [] => []
  | t :: ts => flattenTocNode t ++ flattenToc ts

/-- All TOC entries of a tree, including the root. -/
def flattenTocNode : TocItem → List TocItem
  | .mk i l h cs => TocItem.mk i l h cs :: flattenToc cs

end

/-- Does a stored href, fragment stripped, resolve to a spine position via
the lookup built from the manifest? -/
def hrefResolvesToSpine (spineLookup : SpineLookup) (basePath href : String) : Bool :=
  (mapGet spineLookup.pathToSpineIndex
    (resolvePath basePath (stripFragmentAndQuery href))).isSome

/-! ## Chapter content sanitizer (`preprocessChapterHtml` in
`src/frontend/src/components/ReaderContent.svelte`)

The parsed chapter is a tree of elements; the sanitizer makes two passes,
mirroring the two `querySelectorAll` loops: first every `img[src]`, then
every `image`.  Node-local mutations on a snapshot list are equivalent to
one recursive rewrite per pass; an SVG `image` whose reference fails
removes `closest('svg')` — its nearest `svg` ancestor — when one exists,
else itself.  The resolver-call log is collected separately, because the
source invokes the resolver for every snapshot node even when an earlier
removal has already detached it. -/

/-- An element or text node of the parsed chapter. -/
inductive HNode where
  | text (s : String)
  | elem (tag : String) (attrs : List (String × String)) (children : List HNode)
deriving Repr

/-- `getAttribute(name)`. -/
def getAttr (attrs : List (String × String)) (name : String) : Option String :=
  (attrs.find? (fun a => a.1 = name)).map (·.2)

/-- `setAttribute(name, v)`. -/
def setAttr (attrs : List (String × String)) (name v : String) :
    List (String × String) :=
  if attrs.any (fun a => a.1 = name) then
    attrs.map (fun a => if a.1 = name then (name, v) else a)
  else attrs ++ [(name, v)]

/-- `svgImage.getAttribute('href') || svgImage.getAttribute('xlink:href')`
combined with the `if (!href) continue` guard: the first truthy (present
and non-empty) reference, if any. -/
def effectiveImageRef (attrs : List (String × String)) : Option String :=
  match getAttr attrs "href" with
  | some v =>
    if v ≠ "" then some v
    else
      match getAttr attrs "xlink:href" with
      | some w => if w ≠ "" then some w else none
      | none => none
  | none =>
    match getAttr attrs "xlink:href" with
    | some w => if w ≠ "" then some w else none
    | none => none

mutual

/-- The `img[src]` loop, as a recursive rewrite: a relative `src` is either
rewritten to the resolved URL or, when resolution fails, the `img` element
is removed (`none`); absolute, empty or missing `src` leaves the element
untouched. -/
def imgPassNode (resolve : String → Option String) : HNode → Option HNode
  | .text s => some (.text s)
  | .elem tag attrs children =>
    let cs := imgPassForest resolve children
    if tag = "img" then
      match getAttr attrs "src" with
      | none => some (.elem tag attrs cs)
      | some src =>
        if src = "" then some (.elem tag attrs cs)
        else if isAbsoluteUrl src then some (.elem tag attrs cs)
        else
          match resolve src with
          | none => none
          | some url => some (.elem tag (setAttr attrs "src" url) cs)
    else some (.elem tag attrs cs)

/-- The `img[src]` loop over a sibling list. -/
def imgPassForest (resolve : String → Option String) : List HNode → List HNode
  | [] => []
  | n :: ns =>
    match imgPassNode resolve n with
    | some m => m :: imgPassForest resolve ns
    | none => imgPassForest resolve ns

end

/-- An `image` element whose effective reference is relative and fails to
resolve. -/
def isFailingImage (resolve : String → Option String) : HNode → Bool
  | .elem tag attrs _ =>
    if tag = "image" then
      match effectiveImageRef attrs with
      | some r => !(isAbsoluteUrl r) && (resolve r).isNone
      | none => false
    else false
  | .text _ => false

mutual

/-- Is there a failing `image` in this subtree whose nearest `svg` ancestor
would be the element owning this forest (the scan does not descend into
nested `svg` elements, whose failures remove the nested `svg` instead)? -/
def failingImageInNode (resolve : String → Option String) : HNode → Bool
  | .text _ => false
  | .elem tag attrs children =>
    isFailingImage resolve (.elem tag attrs children)
      || (if tag = "svg" then false else failingImageInForest resolve children)

/-- `failingImageInNode` over a sibling list. -/
def failingImageInForest (resolve : String → Option String) : List HNode → Bool
  | [] => false
  | n :: ns => failingImageInNode resolve n || failingImageInForest resolve ns

end

mutual

/-- The `image` loop, as a recursive rewrite: an `svg` containing a failing
`image` (with no closer `svg` ancestor) is removed whole; a failing `image`
outside any `svg` is removed alone; a resolving image gets both `href` and
`xlink:href` rewritten; absolute or absent references leave the element
untouched. -/
def svgPassNode (resolve : String → Option String) : HNode → Option HNode
  | .text s => some (.text s)
  | .elem tag attrs children =>
    if tag = "svg" then
      if failingImageInForest resolve children then none
      else some (.elem tag attrs (svgPassForest resolve children))
    else if tag = "image" then
      match effectiveImageRef attrs with
      | none => some (.elem tag attrs (svgPassForest resolve children))
      | some r =>
        if isAbsoluteUrl r then some (.elem tag attrs (svgPassForest resolve children))
        else
          match resolve r with
          | none => none
          | some url =>
            some (.elem tag (setAttr (setAttr attrs "href" url) "xlink:href" url)
              (svgPassForest resolve children))
    else some (.elem tag attrs (svgPassForest resolve children))

/-- The `image` loop over a sibling list. -/
def svgPassForest (resolve : String → Option String) : List HNode → List HNode
  | [] => []
  | n :: ns =>
    match svgPassNode resolve n with
    | some m => m :: svgPassForest resolve ns
    | none => svgPassForest resolve ns

end

/-- The pure core of `preprocessChapterHtml`: the `img[src]` pass followed
by the `image` pass, over the parsed body's children. -/
def preprocessChapterHtml (resolve : String → Option String)
    (body : List HNode) : List HNode :=
  svgPassForest resolve (imgPassForest resolve body)

mutual

/-- The relative `img` sources the loop hands to `resolveAssetUrl`, in
document order (present, non-empty, not absolute). -/
def imgCallsNode : HNode → List String
  | .text _ => []
  | .elem tag attrs children =>
    (if tag = "img" then
      match getAttr attrs "src" with
      | some src => if src ≠ "" && !(isAbsoluteUrl src) then [src] else []
      | none => []
    else []) ++ imgCallsForest children

/-- `imgCallsNode` over a sibling list. -/
def imgCallsForest : List HNode → List String
  | [] => []
  | n :: ns => imgCallsNode n ++ imgCallsForest ns

end

mutual

/-- The relative `image` references the loop hands to `resolveAssetUrl`
(truthy effective reference, not absolute). -/
def imageCallsNode : HNode → List String
  | .text _ => []
  | .elem tag attrs children =>
    (if tag = "image" then
      match effectiveImageRef attrs with
      | some r => if !(isAbsoluteUrl r) then [r] else []
      | none => []
    else []) ++ imageCallsForest children

/-- `imageCallsNode` over a sibling list. -/
def imageCallsForest : List HNode → List String
  | [] => []
  | n :: ns => imageCallsNode n ++ imageCallsForest ns

end

/-- All arguments `preprocessChapterHtml` passes to `resolveAssetUrl`: the
`img` snapshot is taken on the parsed document, the `image` snapshot after
the `img` loop has finished. -/
def sanitizeResolverCalls (resolve : String → Option String)
    (body : List HNode) : List String :=
  imgCallsForest body ++ imageCallsForest (imgPassForest resolve body)

mutual

/-- The `src` attributes of all `img` elements in a tree. -/
def imgSrcsNode : HNode → List String
  | .text _ => []
  | .elem tag attrs children =>
    (if tag = "img" then
      match getAttr attrs "src" with
      | some src => [src]
      | none => []
    else []) ++ imgSrcsForest children

/-- `imgSrcsNode` over a sibling list. -/
def imgSrcsForest : List HNode → List String
  | [] => []
  | n :: ns => imgSrcsNode n ++ imgSrcsForest ns

end

/-! # Theorems -/

/-! ## C1: pagination controller -/

theorem clampPageIndex_nonneg (i count : Int) : 0 ≤ clampPageIndex i count := by
  simp [clampPageIndex]

theorem clampPageIndex_lt (i count : Int) (h : 1 ≤ count) :
    clampPageIndex i count < count := by
  simp only [clampPageIndex]
  omega

theorem applyNavOp_inv {s : PaginationState} (h : PaginationInv s) (op : NavOp) :
    PaginationInv (applyNavOp s op) := by
  obtain ⟨h1, _, _⟩ := h
  cases op <;>
    exact ⟨h1, clampPageIndex_nonneg _ _, clampPageIndex_lt _ _ h1⟩

theorem applyNavOps_inv {s : PaginationState} (h : PaginationInv s)
    (ops : List NavOp) : PaginationInv (applyNavOps s ops) := by
  induction ops generalizing s with
  | nil => exact h
  | cons op rest ih => exact ih (applyNavOp_inv h op)

theorem recalcLayout_pageCount_pos (s : PaginationState) (cw vw : Int) :
    1 ≤ (recalcLayout s cw vw).pageCount := by
  unfold recalcLayout
  split <;> simp

theorem recalcLayout_inv (s : PaginationState) (cw vw : Int) :
    PaginationInv (recalcLayout s cw vw) := by
  refine ⟨recalcLayout_pageCount_pos s cw vw, ?_, ?_⟩ <;> unfold recalcLayout
  · split
    · simp
    · exact clampPageIndex_nonneg _ _
  · split
    · simp
    · exact clampPageIndex_lt _ _ (by simp)

/-- The `(a + b - 1) / b` floor-division form of the ceiling, used by the
modelled `recalcLayout`, agrees with the rational ceiling for positive
divisors. -/
theorem fdiv_add_sub_one_eq_ceil (a b : Int) (hb : 0 < b) :
    (a + b - 1).fdiv b = ⌈(a : ℚ) / (b : ℚ)⌉ := by
  rw [Int.fdiv_eq_ediv _ (by omega)]
  set n : Int := (a + b - 1) / b with hn
  have hmod := Int.ediv_add_emod (a + b - 1) b
  have hlo : 0 ≤ (a + b - 1) % b := Int.emod_nonneg _ (by omega)
  have hhi : (a + b - 1) % b < b := Int.emod_lt_of_pos _ hb
  have hbq : (0 : ℚ) < (b : ℚ) := by exact_mod_cast hb
  have h1 : (n - 1) * b < a := by nlinarith [hmod, hlo]
  have h2 : a ≤ n * b := by nlinarith [hmod, hhi]
  symm
  rw [Int.ceil_eq_iff]
  constructor
  · rw [show ((n : ℚ) - 1) = ((n - 1 : Int) : ℚ) by push_cast; ring,
      lt_div_iff₀ hbq]
    exact_mod_cast h1
  · rw [div_le_iff₀ hbq]
    exact_mod_cast h2

/-- C1.  For the pagination controller: with a positive viewport width,
`recalcLayout` sets `pageCount = max(1, ceil(max(contentWidth,
viewportWidth) / viewportWidth)) ≥ 1`; with `viewportWidth ≤ 0` the state
resets to `{viewportWidth := 0, pageCount := 1, pageIndex := 0}`; and after
any sequence of `nextPage` / `prevPage` / `setPage` calls the page index
stays inside `[0, pageCount)`. -/
theorem pagination_recalc_and_clamp_invariant :
    (∀ (s : PaginationState) (cw vw : Int), vw ≤ 0 →
      recalcLayout s cw vw = ⟨0, 1, 0⟩)
    ∧ (∀ (s : PaginationState) (cw vw : Int), 0 < vw →
      (recalcLayout s cw vw).pageCount
          = max 1 ⌈((max cw vw : Int) : ℚ) / (vw : ℚ)⌉
        ∧ 1 ≤ (recalcLayout s cw vw).pageCount)
    ∧ (∀ (s : PaginationState) (cw vw : Int) (ops : List NavOp), 0 < vw →
      0 ≤ (applyNavOps (recalcLayout s cw vw) ops).pageIndex
        ∧ (applyNavOps (recalcLayout s cw vw) ops).pageIndex
            < (applyNavOps (recalcLayout s cw vw) ops).pageCount) := by
  refine ⟨?_, ?_, ?_⟩
  · intro s cw vw h
    simp [recalcLayout, h]
  · intro s cw vw h
    refine ⟨?_, recalcLayout_pageCount_pos s cw vw⟩
    rw [recalcLayout, if_neg (by omega)]
    simp only
    rw [fdiv_add_sub_one_eq_ceil _ _ h]
  · intro s cw vw ops _
    have := applyNavOps_inv (recalcLayout_inv s cw vw) ops
    exact ⟨this.2.1, this.2.2⟩

/-- Witness for C1 at concrete inputs. -/
theorem pagination_recalc_and_clamp_invariant_witness :
    recalcLayout ⟨5, 9, 77⟩ 500 0 = ⟨0, 1, 0⟩
    ∧ (recalcLayout ⟨0, 1, 0⟩ 500 200).pageCount
        = max 1 ⌈((max 500 200 : Int) : ℚ) / ((200 : Int) : ℚ)⌉
    ∧ 0 ≤ (applyNavOps (recalcLayout ⟨0, 1, 0⟩ 500 200)
          [NavOp.next, NavOp.next, NavOp.prev, NavOp.set 99]).pageIndex
    ∧ (applyNavOps (recalcLayout ⟨0, 1, 0⟩ 500 200)
          [NavOp.next, NavOp.next, NavOp.prev, NavOp.set 99]).pageIndex
        < (applyNavOps (recalcLayout ⟨0, 1, 0⟩ 500 200)
          [NavOp.next, NavOp.next, NavOp.prev, NavOp.set 99]).pageCount :=
  ⟨pagination_recalc_and_clamp_invariant.1 _ 500 0 (by decide),
   (pagination_recalc_and_clamp_invariant.2.1 _ 500 200 (by decide)).1,
   (pagination_recalc_and_clamp_invariant.2.2 _ 500 200 _ (by decide)).1,
   (pagination_recalc_and_clamp_invariant.2.2 _ 500 200 _ (by decide)).2⟩

/-! ## C2: reading-anchor restore guard -/

/-- C2.  Restoring a reading anchor is a no-op — the pagination state is
returned unchanged, for every article tree, geometry oracle and pagination
state — whenever the anchor is `null` or its `spineIndex` differs from the
currently displayed chapter's spine index. -/
theorem restore_anchor_cross_chapter_noop
    (isVertical : Bool) (articleEl : Option DomNode)
    (readingAnchor : Option ReadingAnchor) (currentSpineIndex : Int)
    (measureLeft : DomNode → Int → Int) (articleLeft : Int)
    (pagination : PaginationState)
    (h : readingAnchor = none
      ∨ ∃ anchor, readingAnchor = some anchor
          ∧ anchor.spineIndex ≠ currentSpineIndex) :
    restoreReadingAnchor isVertical articleEl readingAnchor currentSpineIndex
      measureLeft articleLeft pagination = pagination := by
  rcases h with h | ⟨anchor, rfl, hne⟩
  · subst h
    cases articleEl <;> rfl
  · cases articleEl with
    | none => rfl
    | some article =>
      by_cases hv : isVertical <;> simp [restoreReadingAnchor, hv, hne]

/-- Witness for C2: a stale anchor pointing at chapter 3 while chapter 4 is
displayed leaves the pagination state untouched. -/
theorem restore_anchor_cross_chapter_noop_witness :
    restoreReadingAnchor true (some (DomNode.elem [DomNode.text "hello"]))
      (some ⟨3, [0], 0⟩) 4 (fun _ _ => 42) 7 ⟨2, 5, 100⟩ = ⟨2, 5, 100⟩ :=
  restore_anchor_cross_chapter_noop true _ _ 4 _ 7 _
    (Or.inr ⟨⟨3, [0], 0⟩, rfl, by decide⟩)

/-! ## C3: render-token race -/

/-- C3.  When a second sanitize request (chapterRenderId 2) starts before
the first (chapterRenderId 1) finishes, then in every interleaving the
display state never holds run 1's output at any point of the execution,
and after the trace it holds exactly run 2's output. -/
theorem render_token_race_second_wins (t : List RenderEv) (h : ValidRace t) :
    (∀ n, n ≤ t.length →
      (renderExec renderInit (t.take n)).renderedHtml ≠ some 1)
    ∧ (renderExec renderInit t).renderedHtml = some 2 := by
  obtain ⟨hperm, h12, h21, h22⟩ := h
  have hlen : t.length = 4 := hperm.length_eq
  match t, hlen with
  | [a, b, c, d], _ =>
    cases a <;> cases b <;> cases c <;> cases d <;>
      revert hperm h12 h21 h22 <;> decide

/-- Witness for C3 at the canonical interleaving `s1 s2 f1 f2`. -/
theorem render_token_race_second_wins_witness :
    (renderExec renderInit [RenderEv.s1, RenderEv.s2, RenderEv.f1, RenderEv.f2]).renderedHtml
      = some 2 :=
  (render_token_race_second_wins _
    ⟨by decide, by decide, by decide, by decide⟩).2

/-! ## C8: path resolution -/

theorem string_mk_data (s : String) : String.mk s.data = s := rfl

theorem splitCharsOn_no_sep (sep : Char) :
    ∀ (cs acc : List Char), sep ∉ acc →
      ∀ s ∈ splitCharsOn sep cs acc, sep ∉ s.data := by
  intro cs
  induction cs with
  | nil =>
    intro acc hacc s hs
    simp only [splitCharsOn, List.mem_singleton] at hs
    subst hs
    simpa using hacc
  | cons c rest ih =>
    intro acc hacc s hs
    by_cases hc : c = sep
    · rw [splitCharsOn, if_pos hc] at hs
      rcases List.mem_cons.mp hs with h | h
      · subst h
        simpa using hacc
      · exact ih [] (by simp) s h
    · rw [splitCharsOn, if_neg hc] at hs
      refine ih (c :: acc) ?_ s hs
      intro hmem
      rcases List.mem_cons.mp hmem with h | h
      · exact hc h.symm
      · exact hacc h

theorem foldl_resolve_parts :
    ∀ (parts acc : List String),
      (∀ p ∈ parts, ('/' : Char) ∉ p.data) →
      (∀ p ∈ acc, p ≠ "" ∧ p ≠ "." ∧ p ≠ ".." ∧ ('/' : Char) ∉ p.data) →
      ∀ p ∈ parts.foldl
        (fun acc part =>
          if part = "" ∨ part = "." then acc
          else if part = ".." then acc.dropLast
          else acc ++ [part]) acc,
        p ≠ "" ∧ p ≠ "." ∧ p ≠ ".." ∧ ('/' : Char) ∉ p.data := by
  intro parts
  induction parts with
  | nil =>
    intro acc _ hacc p hp
    exact hacc p hp
  | cons q rest ih =>
    intro acc hparts hacc p hp
    have hq : ('/' : Char) ∉ q.data := hparts q (List.mem_cons_self q rest)
    have hrest : ∀ p ∈ rest, ('/' : Char) ∉ p.data :=
      fun r hr => hparts r (List.mem_cons_of_mem q hr)
    rw [List.foldl_cons] at hp
    by_cases h1 : q = "" ∨ q = "."
    · rw [if_pos h1] at hp
      exact ih acc hrest hacc p hp
    · rw [if_neg h1] at hp
      by_cases h2 : q = ".."
      · rw [if_pos h2] at hp
        refine ih acc.dropLast hrest ?_ p hp
        intro r hr
        exact hacc r (List.dropLast_subset _ hr)
      · rw [if_neg h2] at hp
        refine ih (acc ++ [q]) hrest ?_ p hp
        intro r hr
        rcases List.mem_append.mp hr with h | h
        · exact hacc r h
        · rw [List.mem_singleton] at h
          subst h
          push_neg at h1
          exact ⟨h1.1, h1.2, h2, hq⟩

theorem splitCharsOn_append (sep : Char) :
    ∀ (xs cs acc : List Char), sep ∉ xs →
      splitCharsOn sep (xs ++ cs) acc = splitCharsOn sep cs (xs.reverse ++ acc) := by
  intro xs
  induction xs with
  | nil => intro cs acc _; simp
  | cons x xr ih =>
    intro cs acc hx
    have hxs : x ≠ sep := fun h => hx (h ▸ List.mem_cons_self x xr)
    have hxr : sep ∉ xr := fun h => hx (List.mem_cons_of_mem x h)
    simp only [List.cons_append, splitCharsOn, if_neg hxs]
    rw [show xr.append cs = xr ++ cs from rfl, ih cs (x :: acc) hxr]
    simp

theorem splitCharsOn_join :
    ∀ l : List String, (∀ s ∈ l, s ≠ "" ∧ ('/' : Char) ∉ s.data) → l ≠ [] →
      splitCharsOn '/' (joinWithSlash l) [] = l := by
  intro l
  induction l with
  | nil => intro _ h; exact absurd rfl h
  | cons s rest ih =>
    intro hgood _
    have hs : ('/' : Char) ∉ s.data := (hgood s (List.mem_cons_self s rest)).2
    cases rest with
    | nil =>
      have h0 := splitCharsOn_append '/' s.data [] [] hs
      rw [List.append_nil] at h0
      show splitCharsOn '/' s.data [] = [s]
      rw [h0]
      simp [splitCharsOn, string_mk_data]
    | cons r rs =>
      show splitCharsOn '/' (s.data ++ '/' :: joinWithSlash (r :: rs)) [] = _
      rw [splitCharsOn_append '/' s.data _ [] hs]
      rw [splitCharsOn, if_pos rfl]
      rw [ih (fun t ht => hgood t (List.mem_cons_of_mem s ht)) (by simp)]
      simp [string_mk_data]

/-- C8.  `resolvePath` never produces a result containing a literal `"."`
or `".."` segment; `resolvePath "a/b/" "../c.png" = "a/c.png"`; and
`resolvePath "a/" "../../x" = "x"` — each `..` pops the last retained
segment, excess `..` beyond the root are silently dropped, and the
function is total (it never throws). -/
theorem resolvePath_no_dot_segments :
    (∀ basePath href : String,
      ∀ seg ∈ splitOnChar (resolvePath basePath href) '/',
        seg ≠ "." ∧ seg ≠ "..")
    ∧ resolvePath "a/b/" "../c.png" = "a/c.png"
    ∧ resolvePath "a/" "../../x" = "x" := by
  refine ⟨?_, by decide, by decide⟩
  intro basePath href seg hmem
  have hparts : ∀ p ∈ splitOnChar (basePath ++ href) '/', ('/' : Char) ∉ p.data :=
    splitCharsOn_no_sep '/' _ [] (by simp)
  have hgood := foldl_resolve_parts _ [] hparts (by simp)
  set normalized := (splitOnChar (basePath ++ href) '/').foldl
    (fun acc part =>
      if part = "" ∨ part = "." then acc
      else if part = ".." then acc.dropLast
      else acc ++ [part]) [] with hnorm
  have hres : resolvePath basePath href = String.mk (joinWithSlash normalized) := rfl
  rw [hres] at hmem
  rcases List.eq_nil_or_concat normalized with hnil | ⟨_, _, hcons⟩
  · rw [hnil] at hmem
    have h2 : seg ∈ [("" : String)] := hmem
    rw [List.mem_singleton] at h2
    subst h2
    exact ⟨by decide, by decide⟩
  · have hne : normalized ≠ [] := by
      rw [hcons]; simp
    have hround : splitOnChar (String.mk (joinWithSlash normalized)) '/' = normalized := by
      show splitCharsOn '/' (String.mk (joinWithSlash normalized)).data [] = normalized
      exact splitCharsOn_join normalized
        (fun p hp => ⟨((hgood p) hp).1, ((hgood p) hp).2.2.2⟩) hne
    rw [hround] at hmem
    exact ⟨((hgood seg) hmem).2.1, ((hgood seg) hmem).2.2.1⟩

/-- Witness for C8: the segments of `resolvePath "x/" "../a" = "a"`. -/
theorem resolvePath_no_dot_segments_witness :
    ("a" : String) ≠ "." ∧ ("a" : String) ≠ ".." :=
  resolvePath_no_dot_segments.1 "x/" "../a" "a" (by decide)

/-! ## C4: nav-document priority over NCX -/

/-- C4.  When the manifest holds a nav-flagged item whose document yields
at least one spine-resolvable link, and also holds an NCX item, the
resolved TOC is exactly the navigation document's normalized result — the
NCX source contributes nothing (every entry of the output comes from
`normalizeTocLinks` over the nav document's anchors, so an entry resolvable
only via NCX is absent). -/
theorem toc_nav_document_priority
    (zip : ZipArchive) (basePath : String) (manifest : List ManifestItem)
    (spine : List SpineItem) (navItem : ManifestItem) (fd : FileData)
    (hnav : manifest.find? hasNavProperty = some navItem)
    (hfile : zipFile zip (resolvePath basePath navItem.href) = some fd)
    (hnonempty : normalizeTocLinks fd.navLinks (resolvePath basePath navItem.href)
        (buildSpineLookup basePath manifest spine) ≠ [])
    (hncx : ∃ it ∈ manifest, isNcxItem it = true) :
    extractToc zip basePath manifest spine
      = toStoredToc (normalizeTocLinks fd.navLinks
          (resolvePath basePath navItem.href)
          (buildSpineLookup basePath manifest spine)) := by
  have hx : extractNavToc zip basePath manifest (buildSpineLookup basePath manifest spine)
      = normalizeTocLinks fd.navLinks (resolvePath basePath navItem.href)
          (buildSpineLookup basePath manifest spine) := by
    rw [extractNavToc, hnav]
    simp only [hfile]
  show (if (extractNavToc zip basePath manifest
        (buildSpineLookup basePath manifest spine)).length > 0
      then toStoredToc (extractNavToc zip basePath manifest
        (buildSpineLookup basePath manifest spine))
      else _)
    = _
  rw [hx, if_pos (List.length_pos.mpr hnonempty)]

/-- Witness for C4: a book with both a nav document (one resolvable link)
and an NCX document; the TOC is the nav document's result. -/
theorem toc_nav_document_priority_witness :
    extractToc
      [("nav.html", ⟨[⟨"ch1.html", "A"⟩], none, "", []⟩),
       ("toc.ncx", ⟨[], some [NavPoint.mk (some "N") (some "ch1.html") []], "", []⟩)]
      ""
      [⟨"nav", "nav.html", "application/xhtml+xml", some "nav"⟩,
       ⟨"ncx", "toc.ncx", "application/x-dtbncx+xml", none⟩,
       ⟨"c1", "ch1.html", "application/xhtml+xml", none⟩]
      [⟨"c1", none⟩]
      = toStoredToc (normalizeTocLinks [⟨"ch1.html", "A"⟩] (resolvePath "" "nav.html")
          (buildSpineLookup ""
            [⟨"nav", "nav.html", "application/xhtml+xml", some "nav"⟩,
             ⟨"ncx", "toc.ncx", "application/x-dtbncx+xml", none⟩,
             ⟨"c1", "ch1.html", "application/xhtml+xml", none⟩]
            [⟨"c1", none⟩])) :=
  toc_nav_document_priority _ _ _ _
    ⟨"nav", "nav.html", "application/xhtml+xml", some "nav"⟩
    ⟨[⟨"ch1.html", "A"⟩], none, "", []⟩
    (by decide) rfl (by decide)
    ⟨⟨"ncx", "toc.ncx", "application/x-dtbncx+xml", none⟩, by decide, by decide⟩

/-! ## Lemmas about the JavaScript `Map` model -/

theorem find?_map_entry {α β : Type} [DecidableEq α] (k q : α) (v : β)
    (h : q ≠ k) :
    ∀ m : List (α × β),
      (m.map (fun e => if e.1 = k then (k, v) else e)).find? (fun e => e.1 = q)
        = m.find? (fun e => e.1 = q) := by
  intro m
  induction m with
  | nil => rfl
  | cons a as ih =>
    simp only [List.map_cons]
    by_cases hak : a.1 = k
    · rw [if_pos hak]
      have e1 : (decide (((k, v) : α × β).1 = q)) = false :=
        decide_eq_false (fun hq => h hq.symm)
      have e2 : (decide (a.1 = q)) = false :=
        decide_eq_false (fun hq => h (hq ▸ hak))
      simp only [List.find?_cons, e1, e2]
      exact ih
    · rw [if_neg hak]
      by_cases haq : a.1 = q
      · have e : (decide (a.1 = q)) = true := decide_eq_true haq
        simp only [List.find?_cons, e]
      · have e : (decide (a.1 = q)) = false := decide_eq_false haq
        simp only [List.find?_cons, e]
        exact ih

theorem find?_append_single {α β : Type} [DecidableEq α] (k q : α) (v : β)
    (h : q ≠ k) :
    ∀ m : List (α × β),
      (m ++ [(k, v)]).find? (fun e => e.1 = q) = m.find? (fun e => e.1 = q) := by
  intro m
  induction m with
  | nil =>
    have e1 : (decide (((k, v) : α × β).1 = q)) = false :=
      decide_eq_false (fun hq => h hq.symm)
    simp only [List.nil_append, List.find?_cons, e1, List.find?_nil]
  | cons a as ih =>
    by_cases haq : a.1 = q
    · have e : (decide (a.1 = q)) = true := decide_eq_true haq
      simp only [List.cons_append, List.find?_cons, e]
    · have e : (decide (a.1 = q)) = false := decide_eq_false haq
      simp only [List.cons_append, List.find?_cons, e]
      exact ih

theorem mapGet_set_ne {α β : Type} [DecidableEq α] (m : List (α × β))
    (k q : α) (v : β) (h : q ≠ k) :
    mapGet (mapSet m k v) q = mapGet m q := by
  unfold mapGet mapSet
  split
  · rw [find?_map_entry k q v h m]
  · rw [find?_append_single k q v h m]

theorem find?_map_entry_self {α β : Type} [DecidableEq α] (k : α) (v : β) :
    ∀ m : List (α × β), m.any (fun e => e.1 = k) = true →
      (m.map (fun e => if e.1 = k then (k, v) else e)).find? (fun e => e.1 = k)
        = some (k, v) := by
  intro m
  induction m with
  | nil => intro h; simp at h
  | cons a as ih =>
    intro hany
    simp only [List.map_cons]
    by_cases hak : a.1 = k
    · rw [if_pos hak]
      simp [List.find?_cons]
    · rw [if_neg hak]
      have e : (decide (a.1 = k)) = false := decide_eq_false hak
      simp only [List.find?_cons, e]
      refine ih ?_
      simp only [List.any_cons, e, Bool.false_or] at hany
      exact hany

theorem find?_none_of_not_any {α β : Type} [DecidableEq α] (k : α) :
    ∀ m : List (α × β), ¬ (m.any (fun e => e.1 = k) = true) →
      m.find? (fun e => e.1 = k) = none := by
  intro m
  induction m with
  | nil => intro _; rfl
  | cons a as ih =>
    intro hany
    have hak : ¬ (a.1 = k) := fun h => hany (by simp [List.any_cons, h])
    have e : (decide (a.1 = k)) = false := decide_eq_false hak
    simp only [List.find?_cons, e]
    exact ih (fun h => hany (by simp [List.any_cons, h]))

theorem find?_append_single_self {α β : Type} [DecidableEq α] (k : α) (v : β) :
    ∀ m : List (α × β), ¬ (m.any (fun e => e.1 = k) = true) →
      (m ++ [(k, v)]).find? (fun e => e.1 = k) = some (k, v) := by
  intro m
  induction m with
  | nil => intro _; simp [List.find?_cons]
  | cons a as ih =>
    intro hany
    have hak : ¬ (a.1 = k) := fun h => hany (by simp [List.any_cons, h])
    have e : (decide (a.1 = k)) = false := decide_eq_false hak
    simp only [List.cons_append, List.find?_cons, e]
    exact ih (fun h => hany (by simp [List.any_cons, h]))

theorem mapGet_set_self {α β : Type} [DecidableEq α] (m : List (α × β))
    (k : α) (v : β) : mapGet (mapSet m k v) k = some v := by
  unfold mapGet mapSet
  split
  · rename_i hany
    rw [find?_map_entry_self k v m hany]
    rfl
  · rename_i hany
    rw [find?_append_single_self k v m hany]
    rfl

theorem mem_of_mapSet_mem {α β : Type} [DecidableEq α] {m : List (α × β)}
    {k : α} {v : β} {pr : α × β} (h : pr ∈ mapSet m k v) :
    pr = (k, v) ∨ pr ∈ m := by
  unfold mapSet at h
  split at h
  · rcases List.mem_map.mp h with ⟨a, ha, hfa⟩
    by_cases hak : a.1 = k
    · rw [if_pos hak] at hfa
      exact Or.inl hfa.symm
    · rw [if_neg hak] at hfa
      exact Or.inr (hfa ▸ ha)
  · rcases List.mem_append.mp h with h1 | h1
    · exact Or.inr h1
    · exact Or.inl (List.mem_singleton.mp h1)

theorem mapGet_mem {α β : Type} [DecidableEq α] {m : List (α × β)} {k : α}
    {v : β} (h : mapGet m k = some v) : (k, v) ∈ m := by
  unfold mapGet at h
  cases hf : m.find? (fun e => e.1 = k) with
  | none => rw [hf] at h; simp at h
  | some pr =>
    rw [hf] at h
    have hmem := List.mem_of_find?_eq_some hf
    have hv : pr.2 = v := by simpa using h
    have hk : pr.1 = k := by simpa using List.find?_some hf
    have : pr = (k, v) := by
      cases pr
      simp_all
    exact this ▸ hmem

theorem mapGet_none_of_bound {β : Type} {m : List (Nat × β)} {bound : Nat}
    (hb : ∀ pr ∈ m, pr.1 < bound) (i : Nat) (hi : bound ≤ i) :
    mapGet m i = none := by
  cases hg : mapGet m i with
  | none => rfl
  | some v =>
    have := hb _ (mapGet_mem hg)
    omega

theorem mem_manifestIdMap :
    ∀ (manifest : List ManifestItem) (pr : String × ManifestItem),
      pr ∈ manifestIdMap manifest → pr.2 ∈ manifest := by
  have key : ∀ (manifest : List ManifestItem) (acc : List (String × ManifestItem))
      (pr : String × ManifestItem),
      pr ∈ manifest.foldl (fun m it => mapSet m it.id it) acc →
      pr.2 ∈ manifest ∨ pr ∈ acc := by
    intro manifest
    induction manifest with
    | nil => intro acc pr h; exact Or.inr h
    | cons it rest ih =>
      intro acc pr h
      rcases ih (mapSet acc it.id it) pr h with h1 | h1
      · exact Or.inl (List.mem_cons_of_mem it h1)
      · rcases mem_of_mapSet_mem h1 with h2 | h2
        · left
          rw [h2]
          exact List.mem_cons_self it rest
        · exact Or.inr h2
  intro manifest pr h
  rcases key manifest [] pr h with h1 | h1
  · exact h1
  · simp at h1

/-! ## Lemmas about `buildSpineLookup` -/

theorem spineLookup_fold_href (basePath : String)
    (mm : List (String × ManifestItem)) :
    ∀ (rest : List SpineItem) (k : Nat) (lk : SpineLookup),
      (∀ pr ∈ lk.spineIndexToManifestHref, pr.1 < k) →
      (∀ i, i < k →
        mapGet ((List.enumFrom k rest).foldl (spineLookupStep basePath mm)
            lk).spineIndexToManifestHref i
          = mapGet lk.spineIndexToManifestHref i)
      ∧ (∀ i, k ≤ i →
        mapGet ((List.enumFrom k rest).foldl (spineLookupStep basePath mm)
            lk).spineIndexToManifestHref i
          = (rest.get? (i - k)).bind
              (fun s => (mapGet mm s.idref).map (fun mi => mi.href))) := by
  intro rest
  induction rest with
  | nil =>
    intro k lk hb
    refine ⟨fun i _ => rfl, fun i hik => ?_⟩
    simp only [List.enumFrom, List.foldl_nil, List.get?_nil, Option.bind_none]
    exact mapGet_none_of_bound hb i hik
  | cons s rest ih =>
    intro k lk hb
    have hstep : (List.enumFrom k (s :: rest)).foldl (spineLookupStep basePath mm) lk
        = (List.enumFrom (k + 1) rest).foldl (spineLookupStep basePath mm)
            (spineLookupStep basePath mm lk (k, s)) := rfl
    have hb1 : ∀ pr ∈ (spineLookupStep basePath mm lk (k, s)).spineIndexToManifestHref,
        pr.1 < k + 1 := by
      intro pr hpr
      unfold spineLookupStep at hpr
      cases hmi : mapGet mm s.idref with
      | none =>
        rw [hmi] at hpr
        exact Nat.lt_succ_of_lt (hb pr hpr)
      | some mi =>
        rw [hmi] at hpr
        simp only at hpr
        rcases mem_of_mapSet_mem hpr with h1 | h1
        · rw [h1]
          exact Nat.lt_succ_self k
        · exact Nat.lt_succ_of_lt (hb pr h1)
    have gket : mapGet (spineLookupStep basePath mm lk (k, s)).spineIndexToManifestHref k
        = (mapGet mm s.idref).map (fun mi => mi.href) := by
      unfold spineLookupStep
      cases hmi : mapGet mm s.idref with
      | none =>
        simp only [Option.map_none]
        exact mapGet_none_of_bound hb k (Nat.le_refl k)
      | some mi =>
        simp only
        exact mapGet_set_self _ _ _
    have gne : ∀ i, i ≠ k →
        mapGet (spineLookupStep basePath mm lk (k, s)).spineIndexToManifestHref i
          = mapGet lk.spineIndexToManifestHref i := by
      intro i hik
      unfold spineLookupStep
      cases hmi : mapGet mm s.idref with
      | none => rfl
      | some mi =>
        simp only
        exact mapGet_set_ne _ _ _ _ hik
    obtain ⟨ih1, ih2⟩ := ih (k + 1) (spineLookupStep basePath mm lk (k, s)) hb1
    constructor
    · intro i hik
      rw [hstep, ih1 i (Nat.lt_succ_of_lt hik), gne i (Nat.ne_of_lt hik)]
    · intro i hik
      rcases Nat.eq_or_lt_of_le hik with heq | hlt
    
      · subst heq
        rw [hstep, ih1 k (Nat.lt_succ_self k), gket]
        simp
      · have h1 : i - k = (i - (k + 1)) + 1 := by omega
        rw [hstep, ih2 i hlt, h1]
        simp

theorem spineLookup_fold_path_preserve (basePath : String)
    (mm : List (String × ManifestItem)) :
    ∀ (rest : List SpineItem) (k : Nat) (lk : SpineLookup) (q : String),
      (∀ s ∈ rest, ∀ mi, mapGet mm s.idref = some mi →
        resolvePath basePath mi.href ≠ q) →
      mapGet ((List.enumFrom k rest).foldl (spineLookupStep basePath mm)
          lk).pathToSpineIndex q
        = mapGet lk.pathToSpineIndex q := by
  intro rest
  induction rest with
  | nil => intro k lk q _; rfl
  | cons s rest ih =>
    intro k lk q hq
    have hstep : (List.enumFrom k (s :: rest)).foldl (spineLookupStep basePath mm) lk
        = (List.enumFrom (k + 1) rest).foldl (spineLookupStep basePath mm)
            (spineLookupStep basePath mm lk (k, s)) := rfl
    rw [hstep, ih (k + 1) _ q
      (fun t ht mi hmi => hq t (List.mem_cons_of_mem s ht) mi hmi)]
    unfold spineLookupStep
    cases hmi : mapGet mm s.idref with
    | none => rfl
    | some mi =>
      simp only
      exact mapGet_set_ne _ _ _ _
        (fun e => hq s (List.mem_cons_self s rest) mi hmi e.symm)

theorem spineLookup_fold_path (basePath : String)
    (mm : List (String × ManifestItem)) :
    ∀ (rest : List SpineItem) (k : Nat) (lk : SpineLookup),
      rest.Pairwise (fun a b =>
        spineItemPath basePath mm a ≠ spineItemPath basePath mm b) →
      ∀ (i : Nat) (s : SpineItem) (mi : ManifestItem),
        rest.get? i = some s → mapGet mm s.idref = some mi →
        mapGet ((List.enumFrom k rest).foldl (spineLookupStep basePath mm)
            lk).pathToSpineIndex (resolvePath basePath mi.href)
          = some (k + i) := by
  intro rest
  induction rest with
  | nil => intro k lk _ i s mi hget _; simp at hget
  | cons s0 rest ih =>
    intro k lk hpw i s mi hget hmi
    have hstep : (List.enumFrom k (s0 :: rest)).foldl (spineLookupStep basePath mm) lk
        = (List.enumFrom (k + 1) rest).foldl (spineLookupStep basePath mm)
            (spineLookupStep basePath mm lk (k, s0)) := rfl
    rw [List.pairwise_cons] at hpw
    cases i with
    | zero =>
      have hs : s0 = s := by simpa using hget
      subst hs
      rw [hstep]
      rw [spineLookup_fold_path_preserve basePath mm rest (k + 1) _ _ ?_]
      · show mapGet (spineLookupStep basePath mm lk (k, s0)).pathToSpineIndex
            (resolvePath basePath mi.href) = some (k + 0)
        unfold spineLookupStep
        rw [hmi]
        simp only [Nat.add_zero]
        exact mapGet_set_self _ _ _
      · intro t ht mi2 hmi2 heq
        have hne := hpw.1 t ht
        rw [spineItemPath, spineItemPath, hmi, hmi2] at hne
        refine hne ?_
        show some (resolvePath basePath mi.href) = some (resolvePath basePath mi2.href)
        rw [heq]
    | succ j =>
      have hget2 : rest.get? j = some s := by simpa using hget
      have := ih (k + 1) (spineLookupStep basePath mm lk (k, s0)) hpw.2 j s mi hget2 hmi
      rw [hstep, this]
      congr 1
      omega

theorem spineLookup_fold_value_resolves (basePath : String)
    (manifest : List ManifestItem) :
    ∀ (rest : List SpineItem) (k : Nat) (lk : SpineLookup),
      (∀ pr ∈ lk.spineIndexToManifestHref,
        (∃ mi ∈ manifest, pr.2 = mi.href)
        ∧ ∃ j, mapGet lk.pathToSpineIndex (resolvePath basePath pr.2) = some j) →
      ∀ pr ∈ ((List.enumFrom k rest).foldl
          (spineLookupStep basePath (manifestIdMap manifest)) lk).spineIndexToManifestHref,
        (∃ mi ∈ manifest, pr.2 = mi.href)
        ∧ ∃ j, mapGet ((List.enumFrom k rest).foldl
            (spineLookupStep basePath (manifestIdMap manifest)) lk).pathToSpineIndex
          (resolvePath basePath pr.2) = some j := by
  intro rest
  induction rest with
  | nil => intro k lk hinv pr hpr; exact hinv pr hpr
  | cons s rest ih =>
    intro k lk hinv pr hpr
    have hstep : (List.enumFrom k (s :: rest)).foldl
          (spineLookupStep basePath (manifestIdMap manifest)) lk
        = (List.enumFrom (k + 1) rest).foldl
            (spineLookupStep basePath (manifestIdMap manifest))
            (spineLookupStep basePath (manifestIdMap manifest) lk (k, s)) := rfl
    rw [hstep] at hpr ⊢
    refine ih (k + 1) _ ?_ pr hpr
    intro pr2 hpr2
    cases hmi : mapGet (manifestIdMap manifest) s.idref with
    | none =>
      simp only [spineLookupStep, hmi] at hpr2 ⊢
      exact hinv pr2 hpr2
    | some mi =>
      simp only [spineLookupStep, hmi] at hpr2 ⊢
      rcases mem_of_mapSet_mem hpr2 with h1 | h1
      · subst h1
        refine ⟨⟨mi, mem_manifestIdMap manifest _ (mapGet_mem hmi), rfl⟩, k, ?_⟩
        exact mapGet_set_self _ _ _
      · obtain ⟨horig, j, hj⟩ := hinv pr2 h1
        refine ⟨horig, ?_⟩
        by_cases hq : resolvePath basePath pr2.2 = resolvePath basePath mi.href
        · exact ⟨k, by rw [hq]; exact mapGet_set_self _ _ _⟩
        · exact ⟨j, by rw [mapGet_set_ne _ _ _ _ hq]; exact hj⟩

theorem buildSpineLookup_value_resolves (basePath : String)
    (manifest : List ManifestItem) (spine : List SpineItem) :
    ∀ pr ∈ (buildSpineLookup basePath manifest spine).spineIndexToManifestHref,
      (∃ mi ∈ manifest, pr.2 = mi.href)
      ∧ ∃ j, mapGet (buildSpineLookup basePath manifest spine).pathToSpineIndex
          (resolvePath basePath pr.2) = some j := by
  intro pr hpr
  exact spineLookup_fold_value_resolves basePath manifest spine 0 ⟨[], []⟩
    (by intro pr2 hpr2; simp [SpineLookup.spineIndexToManifestHref] at hpr2) pr hpr

theorem filterMap_all_some {α β : Type} {f : α → Option β} {g : α → β} :
    ∀ l : List α, (∀ x ∈ l, f x = some (g x)) → l.filterMap f = l.map g := by
  intro l
  induction l with
  | nil => intro _; rfl
  | cons a as ih =>
    intro h
    rw [List.filterMap_cons, h a (List.mem_cons_self a as), List.map_cons,
      ih (fun x hx => h x (List.mem_cons_of_mem a hx))]

theorem generateSpineToc_enumFrom (lookup : SpineLookup) :
    ∀ (rest : List SpineItem) (k : Nat),
      (∀ i, i < rest.length →
        (mapGet lookup.spineIndexToManifestHref (k + i)).isSome = true) →
      ((List.enumFrom k rest).filterMap (fun p =>
        (mapGet lookup.spineIndexToManifestHref p.1).map (fun manifestHref =>
          TocItem.mk ("chapter-" ++ toString (p.1 + 1))
            ("Chapter " ++ toString (p.1 + 1)) manifestHref []))).length = rest.length
      ∧ ∀ i, i < rest.length →
          ∃ h2, mapGet lookup.spineIndexToManifestHref (k + i) = some h2
            ∧ ((List.enumFrom k rest).filterMap (fun p =>
                (mapGet lookup.spineIndexToManifestHref p.1).map (fun manifestHref =>
                  TocItem.mk ("chapter-" ++ toString (p.1 + 1))
                    ("Chapter " ++ toString (p.1 + 1)) manifestHref []))).get? i
              = some (TocItem.mk ("chapter-" ++ toString (k + i + 1))
                  ("Chapter " ++ toString (k + i + 1)) h2 []) := by
  intro rest
  induction rest with
  | nil =>
    intro k _
    exact ⟨rfl, fun i hi => absurd hi (by simp)⟩
  | cons s rest ih =>
    intro k hs
    have h0 : (mapGet lookup.spineIndexToManifestHref k).isSome = true := by
      have := hs 0 (by simp)
      rwa [Nat.add_zero] at this
    obtain ⟨v, hv⟩ := Option.isSome_iff_exists.mp h0
    have hs2 : ∀ i, i < rest.length →
        (mapGet lookup.spineIndexToManifestHref (k + 1 + i)).isSome = true := by
      intro i hi
      have := hs (i + 1) (by simp; omega)
      rwa [show k + (i + 1) = k + 1 + i by omega] at this
    obtain ⟨ihlen, ihget⟩ := ih (k + 1) hs2
    have hcons : (List.enumFrom k (s :: rest)).filterMap (fun p =>
        (mapGet lookup.spineIndexToManifestHref p.1).map (fun manifestHref =>
          TocItem.mk ("chapter-" ++ toString (p.1 + 1))
            ("Chapter " ++ toString (p.1 + 1)) manifestHref []))
        = TocItem.mk ("chapter-" ++ toString (k + 1))
            ("Chapter " ++ toString (k + 1)) v []
          :: (List.enumFrom (k + 1) rest).filterMap (fun p =>
            (mapGet lookup.spineIndexToManifestHref p.1).map (fun manifestHref =>
              TocItem.mk ("chapter-" ++ toString (p.1 + 1))
                ("Chapter " ++ toString (p.1 + 1)) manifestHref [])) := by
      show ((k, s) :: List.enumFrom (k + 1) rest).filterMap _ = _
      rw [List.filterMap_cons]
      simp only [hv, Option.map_some']
    refine ⟨?_, ?_⟩
    · rw [hcons]
      simp [ihlen]
    · intro i hi
      cases i with
      | zero =>
        refine ⟨v, by rwa [Nat.add_zero], ?_⟩
        rw [hcons, Nat.add_zero]
        rfl
      | succ j =>
        have hj : j < rest.length := by simpa using hi
        obtain ⟨h2, hh2, hget⟩ := ihget j hj
        refine ⟨h2, ?_, ?_⟩
        · rwa [show k + (j + 1) = k + 1 + j by omega]
        · rw [hcons]
          rw [show (k + (j + 1) + 1) = (k + 1 + j + 1) by omega]
          simpa using hget

/-! ## C5: spine-derived fallback -/

/-- C5 counterexample.  A book with a one-item spine whose idref names no
manifest item, and no nav/NCX/heuristic TOC content at all: the resolved
TOC is empty although the spine is non-empty, where the claim demands
exactly one entry per spine position. -/
theorem spine_fallback_dangling_idref_counterexample :
    extractToc [] "" [] [⟨"ch1", none⟩] = []
    ∧ ([(⟨"ch1", none⟩ : SpineItem)].length = 1) :=
  ⟨rfl, rfl⟩

/-- C5 (amended).  With no nav document, no NCX and no heuristic match, and
with every spine idref resolving to a manifest item, the TOC has exactly
one entry per spine position, labeled `Chapter N` with the manifest item's
href; when the spine items additionally resolve to pairwise distinct
archive paths, each entry's href resolves back to its own spine index via
the lookup built from the manifest. -/
theorem spine_fallback_complete
    (zip : ZipArchive) (basePath : String) (manifest : List ManifestItem)
    (spine : List SpineItem)
    (hnav : extractNavToc zip basePath manifest
      (buildSpineLookup basePath manifest spine) = [])
    (hncx : extractNcxToc zip basePath manifest
      (buildSpineLookup basePath manifest spine) = [])
    (hfb : extractFallbackHtmlToc zip basePath manifest
      (buildSpineLookup basePath manifest spine) = [])
    (hres : ∀ s ∈ spine, (mapGet (manifestIdMap manifest) s.idref).isSome = true) :
    (extractToc zip basePath manifest spine).length = spine.length
    ∧ ∀ (i : Nat), i < spine.length →
        ∃ (s : SpineItem) (mi : ManifestItem),
          spine.get? i = some s
          ∧ mapGet (manifestIdMap manifest) s.idref = some mi
          ∧ (extractToc zip basePath manifest spine).get? i
              = some (TocItem.mk ("chapter-" ++ toString (i + 1))
                  ("Chapter " ++ toString (i + 1)) mi.href [])
          ∧ (spine.Pairwise (fun a b =>
                spineItemPath basePath (manifestIdMap manifest) a
                  ≠ spineItemPath basePath (manifestIdMap manifest) b) →
              mapGet (buildSpineLookup basePath manifest spine).pathToSpineIndex
                (resolvePath basePath mi.href) = some i) := by
  have htoc : extractToc zip basePath manifest spine
      = generateSpineToc spine (buildSpineLookup basePath manifest spine) := by
    show (if (extractNavToc zip basePath manifest
          (buildSpineLookup basePath manifest spine)).length > 0
        then _ else _) = _
    rw [hnav, hncx, hfb]
    simp
  have hb0 : ∀ pr ∈ (SpineLookup.mk [] []).spineIndexToManifestHref, pr.1 < 0 := by
    intro pr hpr
    simp [SpineLookup.spineIndexToManifestHref] at hpr
  have hgref := (spineLookup_fold_href basePath (manifestIdMap manifest)
    spine 0 ⟨[], []⟩ hb0).2
  have hget2 : ∀ i,
      mapGet (buildSpineLookup basePath manifest spine).spineIndexToManifestHref i
        = (spine.get? i).bind (fun s =>
            (mapGet (manifestIdMap manifest) s.idref).map (fun mi => mi.href)) := by
    intro i
    have h0 := hgref i (Nat.zero_le i)
    rw [Nat.sub_zero] at h0
    exact h0
  have hsome : ∀ i, i < spine.length →
      (mapGet (buildSpineLookup basePath manifest spine).spineIndexToManifestHref
        (0 + i)).isSome = true := by
    intro i hi
    rw [Nat.zero_add, hget2 i]
    obtain ⟨s, hsget⟩ := Option.isSome_iff_exists.mp
      (by rw [List.get?_eq_getElem?]; simp [hi] :
        (spine.get? i).isSome = true)
    rw [hsget]
    have hmem : s ∈ spine := List.get?_mem hsget
    obtain ⟨mi, hmi⟩ := Option.isSome_iff_exists.mp (hres s hmem)
    simp [hmi]
  obtain ⟨hlen, hget⟩ := generateSpineToc_enumFrom
    (buildSpineLookup basePath manifest spine) spine 0 hsome
  constructor
  · rw [htoc]
    exact hlen
  · intro i hi
    obtain ⟨s, hsget⟩ := Option.isSome_iff_exists.mp
      (by rw [List.get?_eq_getElem?]; simp [hi] :
        (spine.get? i).isSome = true)
    have hmem : s ∈ spine := List.get?_mem hsget
    obtain ⟨mi, hmi⟩ := Option.isSome_iff_exists.mp (hres s hmem)
    refine ⟨s, mi, hsget, hmi, ?_, ?_⟩
    · obtain ⟨h2, hh2, hgot⟩ := hget i hi
      rw [Nat.zero_add] at hh2 hgot
      have hmap : mapGet (buildSpineLookup basePath manifest
          spine).spineIndexToManifestHref i = some mi.href := by
        rw [hget2 i, hsget]
        simp [hmi]
      rw [hmap] at hh2
      injection hh2 with heq
      rw [← heq] at hgot
      rw [htoc]
      exact hgot
    · intro hdist
      have := spineLookup_fold_path basePath (manifestIdMap manifest)
        spine 0 ⟨[], []⟩ hdist i s mi hsget hmi
      rw [Nat.zero_add] at this
      exact this

/-- Witness for C5's amended theorem: a two-chapter spine with resolvable,
distinct idrefs and no TOC sources. -/
theorem spine_fallback_complete_witness :
    (extractToc [] ""
      [⟨"c1", "ch1.xml", "text/x-chapter", none⟩,
       ⟨"c2", "ch2.xml", "text/x-chapter", none⟩]
      [⟨"c1", none⟩, ⟨"c2", none⟩]).length = 2
    ∧ (extractToc [] ""
      [⟨"c1", "ch1.xml", "text/x-chapter", none⟩,
       ⟨"c2", "ch2.xml", "text/x-chapter", none⟩]
      [⟨"c1", none⟩, ⟨"c2", none⟩]).get? 0
        = some (TocItem.mk "chapter-1" "Chapter 1" "ch1.xml" []) := by
  obtain ⟨hlen, hget⟩ := spine_fallback_complete [] ""
    [⟨"c1", "ch1.xml", "text/x-chapter", none⟩,
     ⟨"c2", "ch2.xml", "text/x-chapter", none⟩]
    [⟨"c1", none⟩, ⟨"c2", none⟩] rfl rfl rfl (by decide)
  obtain ⟨s, mi, hs, hmi, hg, _⟩ := hget 0 (by decide)
  refine ⟨hlen, ?_⟩
  have hs2 : (⟨"c1", none⟩ : SpineItem) = s := by
    simpa using hs
  subst hs2
  have hc1 : mapGet (manifestIdMap
      [⟨"c1", "ch1.xml", "text/x-chapter", none⟩,
       ⟨"c2", "ch2.xml", "text/x-chapter", none⟩]) "c1"
        = some (⟨"c1", "ch1.xml", "text/x-chapter", none⟩ : ManifestItem) := rfl
  have hmi2 : (⟨"c1", "ch1.xml", "text/x-chapter", none⟩ : ManifestItem) = mi := by
    rw [hc1] at hmi
    simpa using hmi
  subst hmi2
  exact hg

/-! ## Lemmas about the stable sort -/

theorem insertLe_perm (le : α → α → Bool) (x : α) :
    ∀ l : List α, (insertLe le x l).Perm (x :: l) := by
  intro l
  induction l with
  | nil => exact List.Perm.refl _
  | cons y ys ih =>
    rw [insertLe]
    by_cases h : le x y
    · rw [if_pos h]
    · rw [if_neg h]
      exact (ih.cons y).trans (List.Perm.swap x y ys)

theorem sortStable_perm (le : α → α → Bool) :
    ∀ l : List α, (sortStable le l).Perm l := by
  intro l
  induction l with
  | nil => exact List.Perm.refl _
  | cons x xs ih =>
    exact (insertLe_perm le x (sortStable le xs)).trans (ih.cons x)

theorem insertLe_pairwise (le : α → α → Bool)
    (htrans : ∀ a b c, le a b = true → le b c = true → le a c = true)
    (htotal : ∀ a b, le a b = true ∨ le b a = true) (x : α) :
    ∀ l : List α, l.Pairwise (fun a b => le a b = true) →
      (insertLe le x l).Pairwise (fun a b => le a b = true) := by
  intro l
  induction l with
  | nil => intro _; simp [insertLe]
  | cons y ys ih =>
    intro hpw
    rw [List.pairwise_cons] at hpw
    rw [insertLe]
    by_cases h : le x y
    · rw [if_pos h]
      refine List.Pairwise.cons ?_ (List.Pairwise.cons hpw.1 hpw.2)
      intro z hz
      rcases List.mem_cons.mp hz with h1 | h1
      · subst h1
        exact h
      · exact htrans x y z h (hpw.1 z h1)
    · rw [if_neg h]
      refine List.Pairwise.cons ?_ (ih hpw.2)
      intro z hz
      rcases List.mem_cons.mp ((insertLe_perm le x ys).mem_iff.mp hz) with h1 | h1
      · rcases htotal x y with h2 | h2
        · exact absurd h2 h
        · rw [h1]
          exact h2
      · exact hpw.1 z h1

theorem sortStable_pairwise (le : α → α → Bool)
    (htrans : ∀ a b c, le a b = true → le b c = true → le a c = true)
    (htotal : ∀ a b, le a b = true ∨ le b a = true) :
    ∀ l : List α, (sortStable le l).Pairwise (fun a b => le a b = true) := by
  intro l
  induction l with
  | nil => simp [sortStable]
  | cons x xs ih => exact insertLe_pairwise le htrans htotal x _ ih

/-! ## C7: nav-document link normalization -/

theorem normalizeFold_spec (sourcePath : String) (lookup : SpineLookup) :
    ∀ (links : List NavLink) (acc : List String × List NormalizedTocItem),
      (∀ it ∈ acc.2, acc.1.contains it.href = true) →
      acc.2.Pairwise (fun a b => a.href ≠ b.href) →
      (∀ it ∈ (links.foldl (normalizeTocLinkStep sourcePath lookup) acc).2,
        it ∈ acc.2 ∨ TocLinkOrigin links sourcePath lookup it)
      ∧ (links.foldl (normalizeTocLinkStep sourcePath lookup) acc).2.Pairwise
          (fun a b => a.href ≠ b.href) := by
  intro links
  induction links with
  | nil =>
    intro acc _ hpw
    exact ⟨fun it hit => Or.inl hit, hpw⟩
  | cons link rest ih =>
    intro acc hseen hpw
    rw [List.foldl_cons]
    have weaken : ∀ (st : List String × List NormalizedTocItem),
        (∀ it ∈ st.2, st.1.contains it.href = true) →
        st.2.Pairwise (fun a b => a.href ≠ b.href) →
        (∀ it ∈ st.2, it ∈ acc.2 ∨ TocLinkOrigin (link :: rest) sourcePath lookup it) →
        (∀ it ∈ (rest.foldl (normalizeTocLinkStep sourcePath lookup) st).2,
          it ∈ acc.2 ∨ TocLinkOrigin (link :: rest) sourcePath lookup it)
        ∧ (rest.foldl (normalizeTocLinkStep sourcePath lookup) st).2.Pairwise
            (fun a b => a.href ≠ b.href) := by
      intro st hseen2 hpw2 hbase
      obtain ⟨ho, hp⟩ := ih st hseen2 hpw2
      refine ⟨?_, hp⟩
      intro it hit
      rcases ho it hit with h1 | h1
      · exact hbase it h1
      · right
        obtain ⟨l, hl, hrest⟩ := h1
        exact ⟨l, List.mem_cons_of_mem link hl, hrest⟩
    have keep : normalizeTocLinkStep sourcePath lookup acc link = acc →
        (∀ it ∈ (rest.foldl (normalizeTocLinkStep sourcePath lookup)
            (normalizeTocLinkStep sourcePath lookup acc link)).2,
          it ∈ acc.2 ∨ TocLinkOrigin (link :: rest) sourcePath lookup it)
        ∧ (rest.foldl (normalizeTocLinkStep sourcePath lookup)
            (normalizeTocLinkStep sourcePath lookup acc link)).2.Pairwise
            (fun a b => a.href ≠ b.href) := by
      intro heq
      rw [heq]
      exact weaken acc hseen hpw (fun it hit => Or.inl hit)
    by_cases h1 : link.href = ""
    · exact keep (by rw [normalizeTocLinkStep, if_pos h1])
    · by_cases h2 : htmlHrefTest link.href
      · cases h3 : mapGet lookup.pathToSpineIndex
            (resolvePath (dirname sourcePath) (stripFragmentAndQuery link.href)) with
        | none =>
          refine keep ?_
          rw [normalizeTocLinkStep, if_neg h1, if_neg (by simpa using h2)]
          simp only [h3]
        | some spineIndex =>
          cases h4 : mapGet lookup.spineIndexToManifestHref spineIndex with
          | none =>
            refine keep ?_
            rw [normalizeTocLinkStep, if_neg h1, if_neg (by simpa using h2)]
            simp only [h3, h4]
          | some manifestHref =>
            by_cases h5 : acc.1.contains (manifestHref ++ hashSuffix link.href)
            · refine keep ?_
              rw [normalizeTocLinkStep, if_neg h1, if_neg (by simpa using h2)]
              simp only [h3, h4]
              rw [if_pos h5]
            · have hstep : normalizeTocLinkStep sourcePath lookup acc link
                  = ((manifestHref ++ hashSuffix link.href) :: acc.1,
                     acc.2 ++ [⟨jsOrDefault (trimStr link.text)
                          ("Chapter " ++ toString (spineIndex + 1)),
                        manifestHref ++ hashSuffix link.href, spineIndex⟩]) := by
                rw [normalizeTocLinkStep, if_neg h1, if_neg (by simpa using h2)]
                simp only [h3, h4]
                rw [if_neg h5]
              rw [hstep]
              refine weaken _ ?_ ?_ ?_
              · intro it hit
                rcases List.mem_append.mp hit with hmem | hmem
                · have := hseen it hmem
                  simp only [List.contains_cons]
                  rw [this]
                  simp
                · rw [List.mem_singleton] at hmem
                  subst hmem
                  simp [List.contains_cons]
              · rw [List.pairwise_append]
                refine ⟨hpw, List.pairwise_singleton _ _, ?_⟩
                intro a ha b hb
                rw [List.mem_singleton] at hb
                subst hb
                intro heq2
                have heq3 : a.href = manifestHref ++ hashSuffix link.href := heq2
                refine h5 ?_
                rw [← heq3]
                exact hseen a ha
              · intro it hit
                rcases List.mem_append.mp hit with hmem | hmem
                · exact Or.inl hmem
                · rw [List.mem_singleton] at hmem
                  subst hmem
                  right
                  exact ⟨link, List.mem_cons_self link rest, h1, h2, h3, manifestHref, h4, rfl⟩
      · refine keep ?_
        rw [normalizeTocLinkStep, if_neg h1, if_pos (by simpa using h2)]

/-- C7 counterexample.  A nav document with two anchors to the same spine
document, one with a fragment: both survive normalization — the resolved
TOC has two entries with the same spine target (the dedupe key is the full
href including the fragment, not the spine target). -/
theorem nav_duplicate_spine_target_counterexample :
    extractToc
      [("nav.html", ⟨[⟨"ch1.html", "A"⟩, ⟨"ch1.html#s2", "B"⟩], none, "", []⟩)]
      ""
      [⟨"nav", "nav.html", "application/xhtml+xml", some "nav"⟩,
       ⟨"c1", "ch1.html", "application/xhtml+xml", none⟩]
      [⟨"c1", none⟩]
      = [TocItem.mk "toc-1" "A" "ch1.html" [],
         TocItem.mk "toc-2" "B" "ch1.html#s2" []]
    ∧ mapGet (buildSpineLookup ""
        [⟨"nav", "nav.html", "application/xhtml+xml", some "nav"⟩,
         ⟨"c1", "ch1.html", "application/xhtml+xml", none⟩]
        [⟨"c1", none⟩]).pathToSpineIndex
        (resolvePath "" (stripFragmentAndQuery "ch1.html")) = some 0
    ∧ mapGet (buildSpineLookup ""
        [⟨"nav", "nav.html", "application/xhtml+xml", some "nav"⟩,
         ⟨"c1", "ch1.html", "application/xhtml+xml", none⟩]
        [⟨"c1", none⟩]).pathToSpineIndex
        (resolvePath "" (stripFragmentAndQuery "ch1.html#s2")) = some 0 :=
  ⟨rfl, rfl, rfl⟩

/-- C7 (amended).  Navigation-document TOC extraction drops every anchor
that fails the chapter-document pattern or does not resolve to a spine
index; it deduplicates by the full normalized href including the fragment
(so two anchors to the same spine target under different fragments are both
kept); the result is stable-sorted ascending by resolved spine index and
`toStoredToc` assigns sequential ids `toc-(i+1)`. -/
theorem nav_toc_normalization_spec (links : List NavLink) (sourcePath : String)
    (lookup : SpineLookup) :
    (∀ it ∈ normalizeTocLinks links sourcePath lookup,
      TocLinkOrigin links sourcePath lookup it)
    ∧ (normalizeTocLinks links sourcePath lookup).Pairwise
        (fun a b => a.href ≠ b.href)
    ∧ (normalizeTocLinks links sourcePath lookup).Pairwise
        (fun a b => a.spineIndex ≤ b.spineIndex)
    ∧ ∀ (i : Nat) (it : TocItem),
        (toStoredToc (normalizeTocLinks links sourcePath lookup)).get? i = some it →
        it.id = "toc-" ++ toString (i + 1) := by
  obtain ⟨ho, hp⟩ := normalizeFold_spec sourcePath lookup links ([], [])
    (by intro it hit; simp at hit) (by simp)
  have hdef : normalizeTocLinks links sourcePath lookup
      = sortStable (fun a b => a.spineIndex ≤ b.spineIndex)
          (links.foldl (normalizeTocLinkStep sourcePath lookup) ([], [])).2 := rfl
  have hperm := sortStable_perm (fun a b => a.spineIndex ≤ b.spineIndex)
      (links.foldl (normalizeTocLinkStep sourcePath lookup) ([], [])).2
  refine ⟨?_, ?_, ?_, ?_⟩
  · intro it hit
    rw [hdef] at hit
    rcases ho it (hperm.mem_iff.mp hit) with h | h
    · simp at h
    · exact h
  · rw [hdef]
    exact (hperm.pairwise_iff (fun hxy => Ne.symm hxy)).mpr hp
  · rw [hdef]
    have hs := sortStable_pairwise (fun a b => a.spineIndex ≤ b.spineIndex)
      (fun a b c hab hbc => decide_eq_true
        (Nat.le_trans (of_decide_eq_true hab) (of_decide_eq_true hbc)))
      (fun a b => by
        rcases Nat.le_total a.spineIndex b.spineIndex with h | h
        · exact Or.inl (decide_eq_true h)
        · exact Or.inr (decide_eq_true h))
      (links.foldl (normalizeTocLinkStep sourcePath lookup) ([], [])).2
    exact hs.imp (fun h => of_decide_eq_true h)
  · intro i it hget
    have : (toStoredToc (normalizeTocLinks links sourcePath lookup)).get? i
        = ((normalizeTocLinks links sourcePath lookup).enum.get? i).map
            (fun p => TocItem.mk ("toc-" ++ toString (p.1 + 1)) p.2.title p.2.href []) := by
      rw [toStoredToc, List.get?_map]
    rw [this, List.get?_enum] at hget
    cases hx : (normalizeTocLinks links sourcePath lookup).get? i with
    | none => rw [hx] at hget; simp at hget
    | some row =>
      rw [hx] at hget
      simp only [Option.map_some'] at hget
      have : it = TocItem.mk ("toc-" ++ toString (i + 1)) row.title row.href [] := by
        injection hget with h
        exact h.symm
      rw [this]
      rfl

/-- Witness for C7's amended theorem, at the two-anchor nav document of the
counterexample. -/
theorem nav_toc_normalization_spec_witness :
    (normalizeTocLinks [⟨"ch1.html", "A"⟩, ⟨"ch1.html#s2", "B"⟩] "nav.html"
      (buildSpineLookup ""
        [⟨"nav", "nav.html", "application/xhtml+xml", some "nav"⟩,
         ⟨"c1", "ch1.html", "application/xhtml+xml", none⟩]
        [⟨"c1", none⟩])).Pairwise (fun a b => a.href ≠ b.href)
    ∧ TocLinkOrigin [⟨"ch1.html", "A"⟩, ⟨"ch1.html#s2", "B"⟩] "nav.html"
        (buildSpineLookup ""
          [⟨"nav", "nav.html", "application/xhtml+xml", some "nav"⟩,
           ⟨"c1", "ch1.html", "application/xhtml+xml", none⟩]
          [⟨"c1", none⟩]) ⟨"A", "ch1.html", 0⟩
    ∧ (TocItem.mk "toc-1" "A" "ch1.html" []).id = "toc-" ++ toString (0 + 1) := by
  obtain ⟨ho, hp1, _, hid⟩ := nav_toc_normalization_spec
    [⟨"ch1.html", "A"⟩, ⟨"ch1.html#s2", "B"⟩] "nav.html"
    (buildSpineLookup ""
      [⟨"nav", "nav.html", "application/xhtml+xml", some "nav"⟩,
       ⟨"c1", "ch1.html", "application/xhtml+xml", none⟩]
      [⟨"c1", none⟩])
  exact ⟨hp1, ho ⟨"A", "ch1.html", 0⟩ (by decide),
    hid 0 (TocItem.mk "toc-1" "A" "ch1.html" []) rfl⟩

/-! ## C6: href resolution invariant of stored TOC entries -/

theorem takeWhile_append_all {p : Char → Bool} :
    ∀ (xs ys : List Char), (∀ c ∈ xs, p c = true) →
      (xs ++ ys).takeWhile p = xs ++ ys.takeWhile p := by
  intro xs
  induction xs with
  | nil => intro ys _; rfl
  | cons x xr ih =>
    intro ys hall
    have hx : p x = true := hall x (List.mem_cons_self x xr)
    simp only [List.cons_append, List.takeWhile_cons, hx]
    rw [ih ys (fun c hc => hall c (List.mem_cons_of_mem x hc))]
    simp

theorem takeWhile_all {p : Char → Bool} :
    ∀ xs : List Char, (∀ c ∈ xs, p c = true) → xs.takeWhile p = xs := by
  intro xs
  induction xs with
  | nil => intro _; rfl
  | cons x xr ih =>
    intro hall
    simp only [List.takeWhile_cons, hall x (List.mem_cons_self x xr)]
    rw [ih (fun c hc => hall c (List.mem_cons_of_mem x hc))]
    simp

theorem strip_eq_self_chars :
    ∀ s : String, stripFragmentAndQuery s = s →
      ∀ c ∈ s.data, c ≠ '#' ∧ c ≠ '?' := by
  intro s h c hc
  have hdata : (s.data.takeWhile (· ≠ '#')).takeWhile (· ≠ '?') = s.data :=
    congrArg String.data h
  have hlen1 : (s.data.takeWhile (· ≠ '#')).length ≤ s.data.length :=
    (List.takeWhile_sublist _).length_le
  have hlen2 : ((s.data.takeWhile (· ≠ '#')).takeWhile (· ≠ '?')).length
      ≤ (s.data.takeWhile (· ≠ '#')).length :=
    (List.takeWhile_sublist _).length_le
  rw [hdata] at hlen2
  have hinner : s.data.takeWhile (· ≠ '#') = s.data :=
    (List.takeWhile_sublist (l := s.data) (· ≠ '#')).eq_of_length (by omega)
  rw [hinner] at hdata
  constructor
  · have := List.mem_takeWhile_imp (l := s.data) (p := (· ≠ '#')) (hinner ▸ hc)
    simpa using this
  · have := List.mem_takeWhile_imp (l := s.data) (p := (· ≠ '?')) (hdata ▸ hc)
    simpa using this

theorem string_data_append (a b : String) : (a ++ b).data = a.data ++ b.data := rfl

theorem strip_append_fragment (mh rest : String)
    (hmh : ∀ c ∈ mh.data, c ≠ '#' ∧ c ≠ '?')
    (hrest : rest = "" ∨ rest.data.head? = some '#') :
    stripFragmentAndQuery (mh ++ rest) = mh := by
  have hall1 : ∀ c ∈ mh.data, (c ≠ '#' : Bool) = true := by
    intro c hc
    simpa using (hmh c hc).1
  have hall2 : ∀ c ∈ mh.data, (c ≠ '?' : Bool) = true := by
    intro c hc
    simpa using (hmh c hc).2
  show String.mk (((mh ++ rest).data.takeWhile (· ≠ '#')).takeWhile (· ≠ '?')) = mh
  rw [string_data_append]
  rw [takeWhile_append_all mh.data rest.data hall1]
  have hrest2 : rest.data.takeWhile (· ≠ '#') = [] := by
    rcases hrest with h | h
    · rw [show rest.data = ([] : List Char) from congrArg String.data h]
      rfl
    · cases hd : rest.data with
      | nil => rfl
      | cons c cs =>
        rw [hd] at h
        have : c = '#' := by simpa using h
        subst this
        simp [List.takeWhile_cons]
  rw [hrest2, List.append_nil, takeWhile_all mh.data hall2]

theorem dropWhile_head_shape (p : Char → Bool) :
    ∀ l : List Char, l.dropWhile p = []
      ∨ ∃ c cs, l.dropWhile p = c :: cs ∧ p c = false := by
  intro l
  induction l with
  | nil => left; rfl
  | cons c cs ih =>
    by_cases hc : p c
    · rw [List.dropWhile_cons_of_pos hc]
      exact ih
    · right
      exact ⟨c, cs, List.dropWhile_cons_of_neg hc, by simpa using hc⟩

theorem hashSuffix_shape (s : String) :
    hashSuffix s = "" ∨ (hashSuffix s).data.head? = some '#' := by
  rcases dropWhile_head_shape (· ≠ '#') s.data with h | ⟨c, cs, h, hp⟩
  · left
    show String.mk (s.data.dropWhile (· ≠ '#')) = ""
    rw [h]
  · right
    have hc : c = '#' := by simpa using hp
    show (String.mk (s.data.dropWhile (· ≠ '#'))).data.head? = some '#'
    rw [h, hc]
    rfl

theorem strip_hash_only (h : String) (hh : h = "" ∨ h.data.head? = some '#') :
    stripFragmentAndQuery h = "" := by
  rcases hh with h1 | h1
  · rw [h1]
    rfl
  · show String.mk ((h.data.takeWhile (· ≠ '#')).takeWhile (· ≠ '?')) = ""
    cases hd : h.data with
    | nil => rfl
    | cons c cs =>
      rw [hd] at h1
      have hc : c = '#' := by simpa using h1
      subst hc
      have h2 : ('#' :: cs).takeWhile (· ≠ '#') = ([] : List Char) := by simp
      rw [h2]
      rfl

theorem normalizeTocLinks_origin (links : List NavLink) (sourcePath : String)
    (lookup : SpineLookup) :
    ∀ it ∈ normalizeTocLinks links sourcePath lookup,
      TocLinkOrigin links sourcePath lookup it := by
  obtain ⟨ho, _⟩ := normalizeFold_spec sourcePath lookup links ([], [])
    (by intro it hit; simp at hit) (by simp)
  intro it hit
  have hperm := sortStable_perm (fun a b => a.spineIndex ≤ b.spineIndex)
    (links.foldl (normalizeTocLinkStep sourcePath lookup) ([], [])).2
  rcases ho it (hperm.mem_iff.mp hit) with h | h
  · simp at h
  · exact h

theorem lookupValue_href_resolves (basePath : String)
    (manifest : List ManifestItem) (spine : List SpineItem)
    (hclean : ∀ mi ∈ manifest, stripFragmentAndQuery mi.href = mi.href)
    (v rest : String) (i : Nat)
    (hv : mapGet (buildSpineLookup basePath manifest
        spine).spineIndexToManifestHref i = some v)
    (hrest : rest = "" ∨ rest.data.head? = some '#') :
    hrefResolvesToSpine (buildSpineLookup basePath manifest spine) basePath
      (v ++ rest) = true := by
  obtain ⟨⟨mi, hmi, hveq⟩, j, hj⟩ :=
    buildSpineLookup_value_resolves basePath manifest spine (i, v) (mapGet_mem hv)
  have hchars : ∀ c ∈ v.data, c ≠ '#' ∧ c ≠ '?' := by
    rw [show v = mi.href from hveq]
    exact strip_eq_self_chars mi.href (hclean mi hmi)
  have hstrip : stripFragmentAndQuery (v ++ rest) = v :=
    strip_append_fragment v rest hchars hrest
  show (mapGet (buildSpineLookup basePath manifest spine).pathToSpineIndex
    (resolvePath basePath (stripFragmentAndQuery (v ++ rest)))).isSome = true
  rw [hstrip]
  have hj2 : mapGet (buildSpineLookup basePath manifest spine).pathToSpineIndex
      (resolvePath basePath v) = some j := hj
  rw [hj2]
  rfl

theorem flattenToc_of_flat :
    ∀ l : List TocItem, (∀ t ∈ l, t.children = []) →
      ∀ e ∈ flattenToc l, e ∈ l := by
  intro l
  induction l with
  | nil =>
    intro _ e he
    simp [flattenToc] at he
  | cons t ts ih =>
    intro hflat e he
    rw [show flattenToc (t :: ts) = flattenTocNode t ++ flattenToc ts from rfl] at he
    rcases List.mem_append.mp he with h | h
    · have hch : t.children = [] := hflat t (List.mem_cons_self t ts)
      cases t with
      | mk i la hr cs =>
        have hcs : cs = [] := hch
        subst hcs
        rw [show flattenTocNode (TocItem.mk i la hr [])
            = [TocItem.mk i la hr []] from rfl] at h
        rw [List.mem_singleton] at h
        subst h
        exact List.mem_cons_self _ _
    · exact List.mem_cons_of_mem t
        (ih (fun u hu => hflat u (List.mem_cons_of_mem t hu)) e h)

theorem toStoredToc_entry :
    ∀ (items : List NormalizedTocItem) (t : TocItem), t ∈ toStoredToc items →
      t.children = [] ∧ ∃ row ∈ items, t.href = row.href := by
  intro items t ht
  rw [toStoredToc] at ht
  rcases List.mem_map.mp ht with ⟨p, hp, hfp⟩
  refine ⟨by rw [← hfp]; rfl, p.2, ?_, by rw [← hfp]; rfl⟩
  exact List.snd_mem_of_mem_enum hp

theorem mem_flattenToc :
    ∀ (l : List TocItem) (e : TocItem),
      e ∈ flattenToc l ↔ ∃ t ∈ l, e ∈ flattenTocNode t := by
  intro l e
  induction l with
  | nil => simp [flattenToc]
  | cons t ts ih =>
    rw [show flattenToc (t :: ts) = flattenTocNode t ++ flattenToc ts from rfl]
    rw [List.mem_append, ih]
    constructor
    · rintro (h | ⟨u, hu, he⟩)
      · exact ⟨t, List.mem_cons_self t ts, h⟩
      · exact ⟨u, List.mem_cons_of_mem t hu, he⟩
    · rintro ⟨u, hu, he⟩
      rcases List.mem_cons.mp hu with h | h
      · exact Or.inl (h ▸ he)
      · exact Or.inr ⟨u, h, he⟩

mutual

theorem parseNavPointElement_href_shape (ncxPath : String) (lookup : SpineLookup) :
    ∀ (np : NavPoint) (parentId : String) (seen : List String) (it : TocItem),
      (parseNavPointElement ncxPath lookup np parentId seen).1 = some it →
      ∀ e ∈ flattenTocNode it, ∃ src, e.href = normalizeNcxHref src ncxPath lookup
  | NavPoint.mk labelOpt srcOpt childPoints => by
    intro parentId seen it hit e he
    rw [parseNavPointElement] at hit
    split at hit
    · exact absurd hit (by simp)
    · split at hit
      · exact absurd hit (by simp)
      · simp only [Prod.fst] at hit
        injection hit with hit2
        subst hit2
        rw [show flattenTocNode (TocItem.mk parentId
            (jsOrDefault (trimStr (labelOpt.getD "")) "Untitled")
            (normalizeNcxHref (srcOpt.getD "") ncxPath lookup)
            (parseNavPointChildren ncxPath lookup childPoints parentId 1 seen).1)
          = TocItem.mk parentId
              (jsOrDefault (trimStr (labelOpt.getD "")) "Untitled")
              (normalizeNcxHref (srcOpt.getD "") ncxPath lookup)
              (parseNavPointChildren ncxPath lookup childPoints parentId 1 seen).1
            :: flattenToc
              (parseNavPointChildren ncxPath lookup childPoints parentId 1 seen).1
          from rfl] at he
        rcases List.mem_cons.mp he with h | h
        · rw [h]
          exact ⟨srcOpt.getD "", rfl⟩
        · obtain ⟨t, ht, het⟩ := (mem_flattenToc _ e).mp h
          exact parseNavPointChildren_href_shape ncxPath lookup childPoints
            parentId 1 seen t ht e het

theorem parseNavPointChildren_href_shape (ncxPath : String) (lookup : SpineLookup) :
    ∀ (nps : List NavPoint) (parentId : String) (k : Nat) (seen : List String),
      ∀ it ∈ (parseNavPointChildren ncxPath lookup nps parentId k seen).1,
      ∀ e ∈ flattenTocNode it, ∃ src, e.href = normalizeNcxHref src ncxPath lookup
  | [] => by
    intro parentId k seen it hit
    rw [parseNavPointChildren] at hit
    exact absurd hit (by simp)
  | np :: rest => by
    intro parentId k seen it hit e he
    rw [parseNavPointChildren] at hit
    simp only at hit
    cases hh : (parseNavPointElement ncxPath lookup np
        (parentId ++ "-" ++ toString k) seen).1 with
    | some x =>
      rw [hh] at hit
      rcases List.mem_cons.mp hit with h | h
      · subst h
        exact parseNavPointElement_href_shape ncxPath lookup np
          (parentId ++ "-" ++ toString k) seen it hh e he
      · exact parseNavPointChildren_href_shape ncxPath lookup rest parentId
          (k + 1) (parseNavPointElement ncxPath lookup np
            (parentId ++ "-" ++ toString k) seen).2 it h e he
    | none =>
      rw [hh] at hit
      exact parseNavPointChildren_href_shape ncxPath lookup rest parentId
        (k + 1) (parseNavPointElement ncxPath lookup np
          (parentId ++ "-" ++ toString k) seen).2 it hit e he

end

theorem string_empty_append (t : String) : "" ++ t = t := by
  cases t with
  | mk d =>
    show String.mk ([] ++ d) = String.mk d
    rw [List.nil_append]

theorem string_append_empty (t : String) : t ++ "" = t := by
  cases t with
  | mk d =>
    show String.mk (d ++ []) = String.mk d
    rw [List.append_nil]

theorem normalizeNcxHref_strip (src ncxPath : String) (lookup : SpineLookup) :
    stripFragmentAndQuery (normalizeNcxHref src ncxPath lookup) = ""
    ∨ ∃ i v, mapGet lookup.spineIndexToManifestHref i = some v
        ∧ normalizeNcxHref src ncxPath lookup = v ++ hashSuffix src := by
  by_cases h0 : src = ""
  · left
    rw [normalizeNcxHref, if_pos h0]
    rfl
  · rw [normalizeNcxHref, if_neg h0]
    cases h1 : mapGet lookup.pathToSpineIndex
        (resolvePath (dirname ncxPath) (stripFragmentAndQuery src)) with
    | none =>
      left
      simp only [h1, Option.getD_none]
      rw [string_empty_append]
      exact strip_hash_only _ (hashSuffix_shape src)
    | some spineIndex =>
      cases h2 : mapGet lookup.spineIndexToManifestHref spineIndex with
      | none =>
        left
        simp only [h1, h2, Option.getD_none]
        rw [string_empty_append]
        exact strip_hash_only _ (hashSuffix_shape src)
      | some v =>
        right
        refine ⟨spineIndex, v, h2, ?_⟩
        simp only [h1, h2, Option.getD_some]

theorem extractNavToc_origin (zip : ZipArchive) (basePath : String)
    (manifest : List ManifestItem) (lookup : SpineLookup) :
    ∀ it ∈ extractNavToc zip basePath manifest lookup,
      ∃ links sourcePath, TocLinkOrigin links sourcePath lookup it := by
  intro it hit
  rw [extractNavToc] at hit
  split at hit
  · exact absurd hit (by simp)
  · rename_i navItem _
    replace hit : it ∈ (match zipFile zip (resolvePath basePath navItem.href) with
        | none => []
        | some fd => normalizeTocLinks fd.navLinks
            (resolvePath basePath navItem.href) lookup) := hit
    split at hit
    · exact absurd hit (by simp)
    · rename_i fd _
      exact ⟨fd.navLinks, resolvePath basePath navItem.href,
        normalizeTocLinks_origin _ _ _ it hit⟩

theorem extractFallbackHtmlToc_origin (zip : ZipArchive) (basePath : String)
    (manifest : List ManifestItem) (lookup : SpineLookup) :
    ∀ it ∈ extractFallbackHtmlToc zip basePath manifest lookup,
      ∃ links sourcePath, TocLinkOrigin links sourcePath lookup it := by
  intro it hit
  rw [extractFallbackHtmlToc] at hit
  split at hit
  · exact absurd hit (by simp)
  · rename_i best _
    exact ⟨best.anchors, best.path,
      normalizeTocLinks_origin _ _ _ it hit⟩

theorem extractNcxToc_href_shape (zip : ZipArchive) (basePath : String)
    (manifest : List ManifestItem) (lookup : SpineLookup) :
    ∀ it ∈ extractNcxToc zip basePath manifest lookup,
      ∀ e ∈ flattenTocNode it,
        ∃ ncxPath src, e.href = normalizeNcxHref src ncxPath lookup := by
  intro it hit
  rw [extractNcxToc] at hit
  split at hit
  · exact absurd hit (by simp)
  · rename_i ncxItem _
    replace hit : it ∈ (match zipFile zip (resolvePath basePath ncxItem.href) with
        | none => []
        | some fd =>
          match fd.ncxNavMap with
          | none => []
          | some rootNavPoints =>
            (parseNavPointChildren (resolvePath basePath ncxItem.href) lookup
              rootNavPoints "toc" 1 []).1) := hit
    split at hit
    · exact absurd hit (by simp)
    · split at hit
      · exact absurd hit (by simp)
      · rename_i rootNavPoints _
        intro e he
        obtain ⟨src, hsrc⟩ := parseNavPointChildren_href_shape
          (resolvePath basePath ncxItem.href) lookup rootNavPoints "toc" 1 []
          it hit e he
        exact ⟨resolvePath basePath ncxItem.href, src, hsrc⟩

theorem generateSpineToc_entry (spine : List SpineItem) (lookup : SpineLookup) :
    ∀ t ∈ generateSpineToc spine lookup,
      t.children = []
      ∧ ∃ i v, mapGet lookup.spineIndexToManifestHref i = some v ∧ t.href = v := by
  intro t ht
  rw [generateSpineToc] at ht
  rcases List.mem_filterMap.mp ht with ⟨p, _, hfp⟩
  cases hm : mapGet lookup.spineIndexToManifestHref p.1 with
  | none =>
    rw [hm] at hfp
    simp at hfp
  | some v =>
    rw [hm] at hfp
    simp only [Option.map_some'] at hfp
    injection hfp with hfp2
    refine ⟨by rw [← hfp2]; rfl, p.1, v, hm, by rw [← hfp2]; rfl⟩

/-- C6 counterexample.  An NCX whose root navPoint has an unresolvable own
`content src` but a resolvable child: the parent is kept (for hierarchy)
with the empty href, which resolves to no spine position — the claim says
such an entry is dropped during construction. -/
theorem ncx_unresolvable_entry_counterexample :
    extractToc
      [("toc.ncx", ⟨[], some [NavPoint.mk (some "Part") (some "intro.html")
          [NavPoint.mk (some "Ch1") (some "ch1.html") []]], "", []⟩)]
      ""
      [⟨"ncx", "toc.ncx", "application/x-dtbncx+xml", none⟩,
       ⟨"c1", "ch1.html", "application/xhtml+xml", none⟩]
      [⟨"c1", none⟩]
      = [TocItem.mk "toc-1" "Part" ""
          [TocItem.mk "toc-1-1" "Ch1" "ch1.html" []]]
    ∧ hrefResolvesToSpine (buildSpineLookup ""
        [⟨"ncx", "toc.ncx", "application/x-dtbncx+xml", none⟩,
         ⟨"c1", "ch1.html", "application/xhtml+xml", none⟩]
        [⟨"c1", none⟩]) "" "" = false :=
  ⟨rfl, rfl⟩

/-- C6 (amended).  For every entry of the resolved TOC, from any of the
four sources and including nested NCX children: the entry's
fragment-stripped href either resolves to exactly one spine position via
the lookup built from the manifest, or is the empty string.  The empty
case arises only for NCX-sourced nodes (hierarchy parents kept for their
resolvable descendants, and fragment-only hrefs of nodes whose own src
does not resolve); such entries are kept, not dropped.  The hypothesis
says manifest hrefs carry no `#`/`?` characters (they are spine-resolution
keys, so a fragment inside one would break resolution everywhere). -/
theorem toc_href_resolution_invariant
    (zip : ZipArchive) (basePath : String) (manifest : List ManifestItem)
    (spine : List SpineItem)
    (hclean : ∀ mi ∈ manifest, stripFragmentAndQuery mi.href = mi.href) :
    ∀ it ∈ flattenToc (extractToc zip basePath manifest spine),
      stripFragmentAndQuery it.href = ""
        ∨ hrefResolvesToSpine (buildSpineLookup basePath manifest spine)
            basePath it.href = true := by
  intro it hit
  rw [extractToc] at hit
  split at hit
  · -- navigation-document source
    have hmem := flattenToc_of_flat _
      (fun t ht => (toStoredToc_entry _ t ht).1) it hit
    obtain ⟨_, row, hrow, hhref⟩ := toStoredToc_entry _ it hmem
    obtain ⟨links, sourcePath, l, _, _, _, _, mh, hmh, hform⟩ :=
      extractNavToc_origin zip basePath manifest _ row hrow
    right
    rw [hhref, hform]
    exact lookupValue_href_resolves basePath manifest spine hclean mh
      (hashSuffix l.href) row.spineIndex hmh (hashSuffix_shape l.href)
  · replace hit : it ∈ flattenToc
        (if (extractNcxToc zip basePath manifest
            (buildSpineLookup basePath manifest spine)).length > 0
         then extractNcxToc zip basePath manifest
            (buildSpineLookup basePath manifest spine)
         else if (extractFallbackHtmlToc zip basePath manifest
            (buildSpineLookup basePath manifest spine)).length > 0
         then toStoredToc (extractFallbackHtmlToc zip basePath manifest
            (buildSpineLookup basePath manifest spine))
         else generateSpineToc spine
            (buildSpineLookup basePath manifest spine)) := hit
    split at hit
    · -- NCX source
      obtain ⟨t, ht, he⟩ := (mem_flattenToc _ it).mp hit
      obtain ⟨ncxPath, src, hsrc⟩ :=
        extractNcxToc_href_shape zip basePath manifest _ t ht it he
      rcases normalizeNcxHref_strip src ncxPath
        (buildSpineLookup basePath manifest spine) with h | ⟨i, v, hv, hform⟩
      · left
        rw [hsrc]
        exact h
      · right
        rw [hsrc, hform]
        exact lookupValue_href_resolves basePath manifest spine hclean v
          (hashSuffix src) i hv (hashSuffix_shape src)
    · split at hit
      · -- heuristic fallback source
        have hmem := flattenToc_of_flat _
          (fun t ht => (toStoredToc_entry _ t ht).1) it hit
        obtain ⟨_, row, hrow, hhref⟩ := toStoredToc_entry _ it hmem
        obtain ⟨links, sourcePath, l, _, _, _, _, mh, hmh, hform⟩ :=
          extractFallbackHtmlToc_origin zip basePath manifest _ row hrow
        right
        rw [hhref, hform]
        exact lookupValue_href_resolves basePath manifest spine hclean mh
          (hashSuffix l.href) row.spineIndex hmh (hashSuffix_shape l.href)
      · -- spine-derived fallback
        have hmem := flattenToc_of_flat _
          (fun t ht => (generateSpineToc_entry _ _ t ht).1) it hit
        obtain ⟨_, i, v, hv, hhref⟩ := generateSpineToc_entry _ _ it hmem
        right
        rw [hhref, show v = v ++ "" from (string_append_empty v).symm]
        exact lookupValue_href_resolves basePath manifest spine hclean v
          "" i hv (Or.inl rfl)

/-- Witness for C6's amended theorem at the counterexample book: the kept
NCX parent's href is empty after fragment stripping. -/
theorem toc_href_resolution_invariant_witness :
    stripFragmentAndQuery (TocItem.mk "toc-1" "Part" ""
        [TocItem.mk "toc-1-1" "Ch1" "ch1.html" []]).href = ""
      ∨ hrefResolvesToSpine (buildSpineLookup ""
          [⟨"ncx", "toc.ncx", "application/x-dtbncx+xml", none⟩,
           ⟨"c1", "ch1.html", "application/xhtml+xml", none⟩]
          [⟨"c1", none⟩]) ""
          (TocItem.mk "toc-1" "Part" ""
            [TocItem.mk "toc-1-1" "Ch1" "ch1.html" []]).href = true :=
  toc_href_resolution_invariant
    [("toc.ncx", ⟨[], some [NavPoint.mk (some "Part") (some "intro.html")
        [NavPoint.mk (some "Ch1") (some "ch1.html") []]], "", []⟩)]
    ""
    [⟨"ncx", "toc.ncx", "application/x-dtbncx+xml", none⟩,
     ⟨"c1", "ch1.html", "application/xhtml+xml", none⟩]
    [⟨"c1", none⟩]
    (by decide)
    (TocItem.mk "toc-1" "Part" "" [TocItem.mk "toc-1-1" "Ch1" "ch1.html" []])
    (by
      show TocItem.mk "toc-1" "Part" "" [TocItem.mk "toc-1-1" "Ch1" "ch1.html" []]
        ∈ [TocItem.mk "toc-1" "Part" "" [TocItem.mk "toc-1-1" "Ch1" "ch1.html" []],
           TocItem.mk "toc-1-1" "Ch1" "ch1.html" []]
      exact List.mem_cons_self _ _)

/-! ## C9: sanitizer image handling -/

theorem getAttr_setAttr_self (attrs : List (String × String)) (name v : String) :
    getAttr (setAttr attrs name v) name = some v :=
  mapGet_set_self attrs name v

mutual

theorem imgPass_srcs_node (resolve : String → Option String) :
    ∀ (n m : HNode), imgPassNode resolve n = some m →
      ∀ s ∈ imgSrcsNode m,
        isAbsoluteUrl s = true ∨ s = "" ∨ ∃ orig, resolve orig = some s
  | HNode.text t => by
    intro m hm s hs
    rw [imgPassNode] at hm
    injection hm with hm2
    rw [← hm2] at hs
    simp [imgSrcsNode] at hs
  | HNode.elem tag attrs children => by
    intro m hm s hs
    rw [imgPassNode] at hm
    by_cases htag : tag = "img"
    · rw [if_pos htag] at hm
      cases hsrc : getAttr attrs "src" with
      | none =>
        rw [hsrc] at hm
        injection hm with hm2
        rw [← hm2] at hs
        rw [imgSrcsNode, if_pos htag, hsrc] at hs
        rw [List.nil_append] at hs
        exact imgPass_srcs_forest resolve children s hs
      | some src =>
        rw [hsrc] at hm
        dsimp only at hm
        by_cases hemp : src = ""
        · rw [if_pos hemp] at hm
          injection hm with hm2
          rw [← hm2] at hs
          rw [imgSrcsNode, if_pos htag, hsrc] at hs
          rcases List.mem_append.mp hs with h | h
          · rw [List.mem_singleton] at h
            rw [h, hemp]
            exact Or.inr (Or.inl rfl)
          · exact imgPass_srcs_forest resolve children s h
        · rw [if_neg hemp] at hm
          by_cases habs : isAbsoluteUrl src
          · rw [if_pos habs] at hm
            injection hm with hm2
            rw [← hm2] at hs
            rw [imgSrcsNode, if_pos htag, hsrc] at hs
            rcases List.mem_append.mp hs with h | h
            · rw [List.mem_singleton] at h
              rw [h]
              exact Or.inl habs
            · exact imgPass_srcs_forest resolve children s h
          · rw [if_neg habs] at hm
            cases hres : resolve src with
            | none =>
              rw [hres] at hm
              exact absurd hm (by simp)
            | some url =>
              rw [hres] at hm
              injection hm with hm2
              rw [← hm2] at hs
              rw [imgSrcsNode, if_pos htag, getAttr_setAttr_self] at hs
              rcases List.mem_append.mp hs with h | h
              · rw [List.mem_singleton] at h
                rw [h]
                exact Or.inr (Or.inr ⟨src, hres⟩)
              · exact imgPass_srcs_forest resolve children s h
    · rw [if_neg htag] at hm
      injection hm with hm2
      rw [← hm2] at hs
      rw [imgSrcsNode, if_neg htag, List.nil_append] at hs
      exact imgPass_srcs_forest resolve children s hs

theorem imgPass_srcs_forest (resolve : String → Option String) :
    ∀ (ns : List HNode), ∀ s ∈ imgSrcsForest (imgPassForest resolve ns),
      isAbsoluteUrl s = true ∨ s = "" ∨ ∃ orig, resolve orig = some s
  | [] => by
    intro s hs
    simp [imgPassForest, imgSrcsForest] at hs
  | n :: ns => by
    intro s hs
    rw [imgPassForest] at hs
    cases hn : imgPassNode resolve n with
    | some m =>
      rw [hn] at hs
      rw [imgSrcsForest] at hs
      rcases List.mem_append.mp hs with h | h
      · exact imgPass_srcs_node resolve n m hn s h
      · exact imgPass_srcs_forest resolve ns s h
    | none =>
      rw [hn] at hs
      exact imgPass_srcs_forest resolve ns s hs

end

mutual

theorem svgPass_imgSrcs_node (resolve : String → Option String) :
    ∀ (n m : HNode), svgPassNode resolve n = some m →
      ∀ s ∈ imgSrcsNode m, s ∈ imgSrcsNode n
  | HNode.text t => by
    intro m hm s hs
    rw [svgPassNode] at hm
    injection hm with hm2
    rw [← hm2] at hs
    exact hs
  | HNode.elem tag attrs children => by
    intro m hm s hs
    rw [svgPassNode] at hm
    by_cases hsvg : tag = "svg"
    · rw [if_pos hsvg] at hm
      by_cases hfail : failingImageInForest resolve children
      · rw [if_pos hfail] at hm
        exact absurd hm (by simp)
      · rw [if_neg hfail] at hm
        injection hm with hm2
        rw [← hm2] at hs
        rw [imgSrcsNode] at hs ⊢
        have htag : ¬ (tag = "img") := by rw [hsvg]; decide
        rw [if_neg htag] at hs ⊢
        rw [List.nil_append] at hs ⊢
        exact svgPass_imgSrcs_forest resolve children s hs
    · rw [if_neg hsvg] at hm
      by_cases himg : tag = "image"
      · rw [if_pos himg] at hm
        have htag : ¬ (tag = "img") := by rw [himg]; decide
        cases href : effectiveImageRef attrs with
        | none =>
          rw [href] at hm
          injection hm with hm2
          rw [← hm2] at hs
          rw [imgSrcsNode, if_neg htag, List.nil_append] at hs
          rw [imgSrcsNode, if_neg htag, List.nil_append]
          exact svgPass_imgSrcs_forest resolve children s hs
        | some r =>
          rw [href] at hm
          dsimp only at hm
          by_cases habs : isAbsoluteUrl r
          · rw [if_pos habs] at hm
            injection hm with hm2
            rw [← hm2] at hs
            rw [imgSrcsNode, if_neg htag, List.nil_append] at hs
            rw [imgSrcsNode, if_neg htag, List.nil_append]
            exact svgPass_imgSrcs_forest resolve children s hs
          · rw [if_neg habs] at hm
            cases hres : resolve r with
            | none =>
              rw [hres] at hm
              exact absurd hm (by simp)
            | some url =>
              rw [hres] at hm
              injection hm with hm2
              rw [← hm2] at hs
              rw [imgSrcsNode, if_neg htag, List.nil_append] at hs
              rw [imgSrcsNode, if_neg htag, List.nil_append]
              exact svgPass_imgSrcs_forest resolve children s hs
      · rw [if_neg himg] at hm
        injection hm with hm2
        rw [← hm2] at hs
        rw [imgSrcsNode] at hs ⊢
        by_cases htag : tag = "img"
        · rw [if_pos htag] at hs ⊢
          rcases List.mem_append.mp hs with h | h
          · exact List.mem_append.mpr (Or.inl h)
          · exact List.mem_append.mpr
              (Or.inr (svgPass_imgSrcs_forest resolve children s h))
        · rw [if_neg htag] at hs ⊢
          rw [List.nil_append] at hs ⊢
          exact svgPass_imgSrcs_forest resolve children s hs

theorem svgPass_imgSrcs_forest (resolve : String → Option String) :
    ∀ (ns : List HNode), ∀ s ∈ imgSrcsForest (svgPassForest resolve ns),
      s ∈ imgSrcsForest ns
  | [] => by
    intro s hs
    simp [svgPassForest, imgSrcsForest] at hs
  | n :: ns => by
    intro s hs
    rw [svgPassForest] at hs
    rw [imgSrcsForest]
    cases hn : svgPassNode resolve n with
    | some m =>
      rw [hn] at hs
      rw [imgSrcsForest] at hs
      rcases List.mem_append.mp hs with h | h
      · exact List.mem_append.mpr (Or.inl (svgPass_imgSrcs_node resolve n m hn s h))
      · exact List.mem_append.mpr (Or.inr (svgPass_imgSrcs_forest resolve ns s h))
    | none =>
      rw [hn] at hs
      exact List.mem_append.mpr (Or.inr (svgPass_imgSrcs_forest resolve ns s hs))

end

mutual

theorem imgCalls_not_absolute :
    ∀ (n : HNode), ∀ c ∈ imgCallsNode n, isAbsoluteUrl c = false
  | HNode.text t => by
    intro c hc
    simp [imgCallsNode] at hc
  | HNode.elem tag attrs children => by
    intro c hc
    rw [imgCallsNode] at hc
    by_cases htag : tag = "img"
    · rw [if_pos htag] at hc
      cases hsrc : getAttr attrs "src" with
      | none =>
        rw [hsrc] at hc
        rw [List.nil_append] at hc
        exact imgCalls_forest_not_absolute children c hc
      | some src =>
        rw [hsrc] at hc
        dsimp only at hc
        by_cases hcond : (src ≠ "" && !(isAbsoluteUrl src)) = true
        · rw [if_pos hcond] at hc
          rcases List.mem_append.mp hc with h | h
          · rw [List.mem_singleton] at h
            subst h
            have := (Bool.and_eq_true _ _).mp hcond
            simpa using this.2
          · exact imgCalls_forest_not_absolute children c h
        · rw [if_neg hcond] at hc
          rw [List.nil_append] at hc
          exact imgCalls_forest_not_absolute children c hc
    · rw [if_neg htag] at hc
      rw [List.nil_append] at hc
      exact imgCalls_forest_not_absolute children c hc

theorem imgCalls_forest_not_absolute :
    ∀ (ns : List HNode), ∀ c ∈ imgCallsForest ns, isAbsoluteUrl c = false
  | [] => by
    intro c hc
    simp [imgCallsForest] at hc
  | n :: ns => by
    intro c hc
    rw [imgCallsForest] at hc
    rcases List.mem_append.mp hc with h | h
    · exact imgCalls_not_absolute n c h
    · exact imgCalls_forest_not_absolute ns c h

end

mutual

theorem imageCalls_not_absolute :
    ∀ (n : HNode), ∀ c ∈ imageCallsNode n, isAbsoluteUrl c = false
  | HNode.text t => by
    intro c hc
    simp [imageCallsNode] at hc
  | HNode.elem tag attrs children => by
    intro c hc
    rw [imageCallsNode] at hc
    by_cases htag : tag = "image"
    · rw [if_pos htag] at hc
      cases href : effectiveImageRef attrs with
      | none =>
        rw [href] at hc
        rw [List.nil_append] at hc
        exact imageCalls_forest_not_absolute children c hc
      | some r =>
        rw [href] at hc
        dsimp only at hc
        by_cases hcond : (!(isAbsoluteUrl r)) = true
        · rw [if_pos hcond] at hc
          rcases List.mem_append.mp hc with h | h
          · rw [List.mem_singleton] at h
            subst h
            simpa using hcond
          · exact imageCalls_forest_not_absolute children c h
        · rw [if_neg hcond] at hc
          rw [List.nil_append] at hc
          exact imageCalls_forest_not_absolute children c hc
    · rw [if_neg htag] at hc
      rw [List.nil_append] at hc
      exact imageCalls_forest_not_absolute children c hc

theorem imageCalls_forest_not_absolute :
    ∀ (ns : List HNode), ∀ c ∈ imageCallsForest ns, isAbsoluteUrl c = false
  | [] => by
    intro c hc
    simp [imageCallsForest] at hc
  | n :: ns => by
    intro c hc
    rw [imageCallsForest] at hc
    rcases List.mem_append.mp hc with h | h
    · exact imageCalls_not_absolute n c h
    · exact imageCalls_forest_not_absolute ns c h

end

/-- C9.  Chapter sanitization: (1) when the resolver only ever hands back
absolute URLs, no `img` whose (non-empty) relative `src` fails to resolve
survives into the sanitized output — the element is removed; (2) the
resolver is never invoked on an absolute reference; (3) an `img` with an
absolute `src` passes through the `img` loop with its attributes untouched;
(4) an `svg` containing a failing `image` (with no closer `svg` ancestor)
is removed whole; (5) a failing `image` processed outside any `svg` is
removed alone. -/
theorem sanitizer_image_resolution (resolve : String → Option String)
    (hres : ∀ p u, resolve p = some u → isAbsoluteUrl u = true) :
    (∀ (body : List HNode) (s : String), s ≠ "" → isAbsoluteUrl s = false →
      resolve s = none → s ∉ imgSrcsForest (preprocessChapterHtml resolve body))
    ∧ (∀ (body : List HNode) (s : String), isAbsoluteUrl s = true →
      s ∉ sanitizeResolverCalls resolve body)
    ∧ (∀ (attrs : List (String × String)) (children : List HNode) (s : String),
      getAttr attrs "src" = some s → isAbsoluteUrl s = true →
      imgPassNode resolve (HNode.elem "img" attrs children)
        = some (HNode.elem "img" attrs (imgPassForest resolve children)))
    ∧ (∀ (attrs : List (String × String)) (children : List HNode),
      failingImageInForest resolve children = true →
      svgPassNode resolve (HNode.elem "svg" attrs children) = none)
    ∧ (∀ (attrs : List (String × String)) (children : List HNode) (r : String),
      effectiveImageRef attrs = some r → isAbsoluteUrl r = false →
      resolve r = none →
      svgPassNode resolve (HNode.elem "image" attrs children) = none) := by
  refine ⟨?_, ?_, ?_, ?_, ?_⟩
  · intro body s hne habs hnone hmem
    have h1 : s ∈ imgSrcsForest (imgPassForest resolve body) :=
      svgPass_imgSrcs_forest resolve _ s hmem
    rcases imgPass_srcs_forest resolve body s h1 with h | h | ⟨orig, horig⟩
    · rw [h] at habs
      cases habs
    · exact hne h
    · have := hres orig s horig
      rw [this] at habs
      cases habs
  · intro body s habs hmem
    rw [sanitizeResolverCalls] at hmem
    rcases List.mem_append.mp hmem with h | h
    · have := imgCalls_forest_not_absolute body s h
      rw [this] at habs
      cases habs
    · have := imageCalls_forest_not_absolute _ s h
      rw [this] at habs
      cases habs
  · intro attrs children s hsrc habs
    have hne : ¬ (s = "") := by
      intro h
      rw [h] at habs
      exact absurd habs (by decide)
    rw [imgPassNode, if_pos rfl, hsrc]
    dsimp only
    rw [if_neg hne, if_pos habs]
  · intro attrs children hfail
    rw [svgPassNode, if_pos rfl, if_pos hfail]
  · intro attrs children r href habs hnone
    rw [svgPassNode, if_neg (by decide : ¬ ("image" = "svg")), if_pos rfl, href]
    dsimp only
    rw [if_neg (by rw [habs]; simp : ¬ (isAbsoluteUrl r = true)), hnone]

/-- Witness for C9 with a resolver mapping `good.png` to `blob:ok` and
everything else to absence. -/
theorem sanitizer_image_resolution_witness :
    "missing.png" ∉ imgSrcsForest (preprocessChapterHtml
      (fun p => if p = "good.png" then some "blob:ok" else none)
      [HNode.elem "p" [] [HNode.elem "img" [("src", "missing.png")] []]])
    ∧ "https://x/y.png" ∉ sanitizeResolverCalls
      (fun p => if p = "good.png" then some "blob:ok" else none)
      [HNode.elem "img" [("src", "https://x/y.png")] []]
    ∧ imgPassNode (fun p => if p = "good.png" then some "blob:ok" else none)
        (HNode.elem "img" [("src", "https://x/y.png")] [])
      = some (HNode.elem "img" [("src", "https://x/y.png")]
          (imgPassForest (fun p => if p = "good.png" then some "blob:ok" else none) []))
    ∧ svgPassNode (fun p => if p = "good.png" then some "blob:ok" else none)
        (HNode.elem "svg" [] [HNode.elem "image" [("href", "missing.png")] []]) = none
    ∧ svgPassNode (fun p => if p = "good.png" then some "blob:ok" else none)
        (HNode.elem "image" [("href", "missing.png")] []) = none := by
  have hres : ∀ p u, (if p = "good.png" then some "blob:ok" else none) = some u →
      isAbsoluteUrl u = true := by
    intro p u h
    by_cases hp : p = "good.png"
    · rw [if_pos hp] at h
      injection h with h2
      rw [← h2]
      decide
    · rw [if_neg hp] at h
      exact absurd h (by simp)
  obtain ⟨h1, h2, h3, h4, h5⟩ := sanitizer_image_resolution
    (fun p => if p = "good.png" then some "blob:ok" else none) hres
  exact ⟨h1 _ "missing.png" (by decide) (by decide) rfl,
    h2 _ "https://x/y.png" (by decide),
    h3 _ _ "https://x/y.png" rfl (by decide),
    h4 [] _ rfl,
    h5 _ [] "missing.png" rfl (by decide) rfl⟩

/-! ## C10: root-relative references -/

theorem startsWithSlash_isAbsolute :
    ∀ s : String, startsWithStr s "/" = true → isAbsoluteUrl s = true := by
  intro s h
  cases hd : s.data with
  | nil =>
    rw [startsWithStr, hd] at h
    exact absurd h (by decide)
  | cons c cs =>
    rw [startsWithStr, hd] at h
    have hc : c = '/' := by
      have h2 : (("/" : String).data).isPrefixOf (c :: cs) = true := h
      simp [List.isPrefixOf] at h2
      exact h2.symm
    rw [isAbsoluteUrl]
    have hlast : startsWithStr (toLowerStr s) "/" = true := by
      rw [startsWithStr, toLowerStr]
      show (("/" : String).data).isPrefixOf ((s.data).map Char.toLower) = true
      rw [hd, List.map_cons, hc]
      have hlow : Char.toLower '/' = '/' := by decide
      rw [hlow]
      simp [List.isPrefixOf]
    rw [hlast]
    simp

/-- C10 counterexample.  An `svg` holding one failing `image` and one
root-relative `image` (`/logo.png`): the whole `svg` is removed, taking the
root-relative element with it — the claim's "never removed" is false. -/
theorem rootrel_image_removed_with_enclosing_svg :
    preprocessChapterHtml (fun _ => none)
      [HNode.elem "svg" [] [HNode.elem "image" [("href", "bad.png")] [],
        HNode.elem "image" [("href", "/logo.png")] []]] = []
    ∧ isAbsoluteUrl "/logo.png" = true :=
  ⟨rfl, rfl⟩

/-- C10 (amended).  A reference beginning with `/` matches the
`/^(data:|blob:|https?:|\/)/i` absolute-URL test, so the sanitizer never
invokes the resolver for it, never rewrites it against the chapter
directory, and its element passes through both loops untouched; the
element can still disappear as part of an enclosing `svg` removed because
of a different, failing reference. -/
theorem rootrel_reference_untouched (resolve : String → Option String) :
    (∀ s : String, startsWithStr s "/" = true → isAbsoluteUrl s = true)
    ∧ (∀ (body : List HNode) (s : String), startsWithStr s "/" = true →
        s ∉ sanitizeResolverCalls resolve body)
    ∧ (∀ (attrs : List (String × String)) (children : List HNode) (s : String),
        getAttr attrs "src" = some s → startsWithStr s "/" = true →
        imgPassNode resolve (HNode.elem "img" attrs children)
          = some (HNode.elem "img" attrs (imgPassForest resolve children)))
    ∧ (∀ (attrs : List (String × String)) (children : List HNode) (r : String),
        effectiveImageRef attrs = some r → startsWithStr r "/" = true →
        svgPassNode resolve (HNode.elem "image" attrs children)
          = some (HNode.elem "image" attrs (svgPassForest resolve children))) := by
  refine ⟨startsWithSlash_isAbsolute, ?_, ?_, ?_⟩
  · intro body s hslash hmem
    have habs := startsWithSlash_isAbsolute s hslash
    rw [sanitizeResolverCalls] at hmem
    rcases List.mem_append.mp hmem with h | h
    · have := imgCalls_forest_not_absolute body s h
      rw [this] at habs
      cases habs
    · have := imageCalls_forest_not_absolute _ s h
      rw [this] at habs
      cases habs
  · intro attrs children s hsrc hslash
    have habs := startsWithSlash_isAbsolute s hslash
    have hne : ¬ (s = "") := by
      intro h
      rw [h] at habs
      exact absurd habs (by decide)
    rw [imgPassNode, if_pos rfl, hsrc]
    dsimp only
    rw [if_neg hne, if_pos habs]
  · intro attrs children r href hslash
    have habs := startsWithSlash_isAbsolute r hslash
    rw [svgPassNode, if_neg (by decide : ¬ ("image" = "svg")), if_pos rfl, href]
    dsimp only
    rw [if_pos habs]

/-- Witness for C10's amended theorem at `/logo.png`. -/
theorem rootrel_reference_untouched_witness :
    isAbsoluteUrl "/logo.png" = true
    ∧ "/logo.png" ∉ sanitizeResolverCalls (fun _ => none)
        [HNode.elem "image" [("href", "/logo.png")] []]
    ∧ svgPassNode (fun _ => none)
        (HNode.elem "image" [("href", "/logo.png")] [])
      = some (HNode.elem "image" [("href", "/logo.png")]
          (svgPassForest (fun _ => none) [])) := by
  obtain ⟨h1, h2, _, h4⟩ := rootrel_reference_untouched (fun _ => none)
  exact ⟨h1 "/logo.png" (by decide),
    h2 _ "/logo.png" (by decide),
    h4 _ [] "/logo.png" rfl (by decide)⟩
